import Mathlib

/-!
# Verification of a fixed-size first-fit free-list allocator

Shallow embedding of `src/P9/assignment09-templates/p1/malloc.c`.

The heap is a byte arena of `HEAP_SIZE` bytes.  A block header (`Block` in
`malloc.h`, 16 bytes) stores a 64-bit `size` (total block size, header
included) and a second word that is a union of the free-list `next` pointer
and the allocated `magic` tag (the code comment "Don't update magic yet (we
still need the next pointer)" shows the two share storage).

We model the arena as an association list from block-start offsets to
headers, together with the free-list head `_firstFreeBlock`.  Pointers are
byte offsets from the arena base; the C `NULL` is `Option.none` (a real
block pointer, even at offset 0, compares greater than `NULL` because the
arena base address is nonzero).  Machine arithmetic on `uint64_t` is `Nat`
with explicit `% 2 ^ 64` where the C can wrap.  Undefined behaviour
(dereferencing `NULL`, reading the pointer field of an allocated header,
a failing `assert`, out-of-arena pointer arithmetic, non-termination of a
list walk) makes an operation return `none`.
-/

namespace Malloc

/-- `HEADER_SIZE` from `malloc.h`: 16 bytes. -/
def HEADER_SIZE : Nat := 16

/-- The modulus of `uint64_t` arithmetic. -/
def U64 : Nat := 2 ^ 64

/-- The second header word: a union of the free-list `next` pointer and the
allocated-block `magic` tag.  `undef` is the state of a header word that has
never been written (its bytes are unspecified arena contents). -/
inductive Link where
  | next (o : Option Nat)
  | magic
  | undef
deriving DecidableEq, Repr

/-- A block header: total block size in bytes (header included) and the
union word. -/
structure Header where
  size : Nat
  link : Link
deriving DecidableEq, Repr

/-- The arena contents, as an association list from block-start byte offsets
to the headers written there.  Offsets never written are absent. -/
abbrev Mem := List (Nat × Header)

/-- Read the header at offset `o`. -/
def lookupH : Mem → Nat → Option Header
  | [], _ => none
  | (k, h) :: t, o => if k = o then some h else lookupH t o

/-- Write a whole header at offset `o` (overwriting any previous one). -/
def writeH : Mem → Nat → Header → Mem
  | [], o, h => [(o, h)]
  | (k, h0) :: t, o, h => if k = o then (o, h) :: t else (k, h0) :: writeH t o h

/-- The global allocator state: `HEAP_SIZE`, the arena contents and
`_firstFreeBlock` (`none` = `NULL`). -/
structure AllocState where
  heapSize : Nat
  mem : Mem
  firstFreeBlock : Option Nat
deriving DecidableEq, Repr

/-- `block->size = v`: writes the size field.  At a never-written offset the
other header word keeps its unspecified contents. -/
def setSize (m : Mem) (o v : Nat) : Mem :=
  match lookupH m o with
  | some h => writeH m o ⟨v, h.link⟩
  | none => writeH m o ⟨v, Link.undef⟩

/-- `block->next = v`: writes the pointer field (overwriting a magic tag,
as the union does). -/
def setNext (m : Mem) (o : Nat) (v : Option Nat) : Mem :=
  match lookupH m o with
  | some h => writeH m o ⟨h.size, Link.next v⟩
  | none => writeH m o ⟨0, Link.next v⟩

/-- `block->magic = ALLOCATED_BLOCK_MAGIC`: writes the union word. -/
def setMagic (m : Mem) (o : Nat) : Mem :=
  match lookupH m o with
  | some h => writeH m o ⟨h.size, Link.magic⟩
  | none => writeH m o ⟨0, Link.magic⟩

/-- Read `block->next`.  Reading the pointer field of a header whose union
word holds the magic tag (or was never written) yields an unusable garbage
pointer: modelled as stuck. -/
def readNext (m : Mem) (o : Nat) : Option (Option Nat) :=
  match lookupH m o with
  | some ⟨_, Link.next q⟩ => some q
  | _ => none

/-- `initAllocator()`: one free block spanning the whole arena,
`_firstFreeBlock` pointing at it. -/
def initAllocator (hs : Nat) : AllocState :=
  ⟨hs, [(0, ⟨hs, Link.next none⟩)], some 0⟩

/-- `roundUp(n)` from `malloc.c`: `(n+0xF) & (~0xF)` on `uint64_t`.
`~0xF` as a 64-bit value is `0xFFFFFFFFFFFFFFF0`. -/
def roundUp (n : Nat) : Nat :=
  ((n + 0xF) % U64) &&& 0xFFFFFFFFFFFFFFF0

/-- `_getNextBlockBySize(current)`: the block starting right after
`current`, i.e. at `current + current->size` (the code takes
`&current->data[current->size - HEADER_SIZE]`, and `data` sits
`HEADER_SIZE` bytes in; a size below `HEADER_SIZE` would wrap the pointer
out of the arena, which is undefined).  Returns `some none` when the next
address is exactly the arena end (the C returns `NULL`); a next address
past the arena end fails the `assert(next <= end)`. -/
def getNextBlockBySize (s : AllocState) (cur : Nat) : Option (Option Nat) :=
  match lookupH s.mem cur with
  | none => none
  | some h =>
    if h.size < HEADER_SIZE then none
    else
      let nxt := cur + h.size
      if s.heapSize < nxt then none
      else if nxt = s.heapSize then some none
      else some (some nxt)

/-- The `Block **update_next` argument of `allocate_block`: either
`&_firstFreeBlock` or `&someBlock->next`. -/
inductive Slot where
  | head
  | nextOf (o : Nat)
deriving DecidableEq, Repr

/-- `*update_next = v`. -/
def writeSlot (s : AllocState) (sl : Slot) (v : Option Nat) : AllocState :=
  match sl with
  | Slot.head => { s with firstFreeBlock := v }
  | Slot.nextOf o => { s with mem := setNext s.mem o v }

/-- `*update_next`, read back. -/
def readSlot (s : AllocState) (sl : Slot) : Option (Option Nat) :=
  match sl with
  | Slot.head => some s.firstFreeBlock
  | Slot.nextOf o => readNext s.mem o

/-- `allocate_block(update_next, block, new_size)` from `malloc.c`
(functional content; the lock calls are modelled separately).  Returns the
new state and the payload offset `&block->data[0] = block + HEADER_SIZE`. -/
def allocate_block (s : AllocState) (sl : Slot) (b new_size : Nat) :
    Option (AllocState × Nat) :=
  match lookupH s.mem b with
  | none => none
  | some h =>
    if h.size < new_size then none -- assert(block->size >= new_size) fails
    else if h.size = new_size then
      -- exactly the right size: unlink, mark allocated
      match readNext s.mem b with
      | none => none
      | some q =>
        let s1 := writeSlot s sl q
        let s2 := { s1 with mem := setMagic s1.mem b }
        some (s2, b + HEADER_SIZE)
    else
      -- split: shrink block, create the new free block after it
      let new_free_size := h.size - new_size
      let s1 := { s with mem := setSize s.mem b new_size }
      match getNextBlockBySize s1 b with
      | none => none
      | some none => none -- newfree == NULL; newfree->size dereferences it
      | some (some nf) =>
        let s2 := { s1 with mem := setSize s1.mem nf new_free_size }
        match readNext s2.mem b with
        | none => none
        | some q =>
          let s3 := { s2 with mem := setNext s2.mem nf q }
          let s4 := { s3 with mem := setMagic s3.mem b }
          let s5 := writeSlot s4 sl (some nf)
          some (s5, b + HEADER_SIZE)

/-- The free-list search loop of `my_malloc`: first block with
`size >= needed`, tracking the pointer slot referencing it.  `fuel` bounds
the walk; running out models non-termination on a corrupted list.
Returns `some none` when the list is exhausted (the C falls out with
`block == NULL`). -/
def findFit (s : AllocState) : Nat → Slot → Option Nat → Nat →
    Option (Option (Slot × Nat))
  | 0, _, _, _ => none
  | fuel + 1, sl, cur, needed =>
    match cur with
    | none => some none
    | some b =>
      match lookupH s.mem b with
      | none => none
      | some h =>
        if needed ≤ h.size then some (some (sl, b))
        else
          match h.link with
          | Link.next q => findFit s fuel (Slot.nextOf b) q needed
          | _ => none

/-- `my_malloc(size)` (functional content).  The result pointer is `none`
for the C `NULL` return. -/
def my_malloc (s : AllocState) (n : Nat) : Option (AllocState × Option Nat) :=
  let needed := (roundUp n + HEADER_SIZE) % U64
  match findFit s (s.heapSize + 1) Slot.head s.firstFreeBlock needed with
  | none => none
  | some none => some (s, none)
  | some (some (sl, b)) =>
    match allocate_block s sl b needed with
    | none => none
    | some (s2, p) => some (s2, some p)

/-- `merge_blocks(block1, block2)` from `malloc.c`.  `b2` is the pointer
value passed (possibly `NULL`).  Does nothing unless
`block1 + block1->size == block2`; then `assert(block1->next == block2)`
and merge `block2` into `block1`. -/
def merge_blocks (s : AllocState) (b1 : Nat) (b2 : Option Nat) :
    Option AllocState :=
  match lookupH s.mem b1 with
  | none => none
  | some h1 =>
    match b2 with
    | none => some s -- block1 + size != NULL: not neighbors, return
    | some o2 =>
      if b1 + h1.size ≠ o2 then some s
      else
        match h1.link with
        | Link.next q =>
          if q ≠ some o2 then none -- assert(block1->next == block2) fails
          else
            match lookupH s.mem o2 with
            | none => none
            | some h2 =>
              match h2.link with
              | Link.next q2 =>
                some { s with
                  mem := writeH s.mem b1 ⟨(h1.size + h2.size) % U64, Link.next q2⟩ }
              | _ => none -- block2->next reads a garbage pointer
        | _ => none -- assert reads a garbage pointer

/-- The insertion-scan loop of `my_free`:
`while (freeblock->next < block && freeblock->next != NULL)`.
A `NULL` next compares below the first condition as true (`NULL` is address
0, every block address is above the arena base) but fails the second, so
the loop exits; continuing requires `next` non-null and below `block`. -/
def freeScan (s : AllocState) : Nat → Nat → Nat → Option Nat
  | 0, _, _ => none
  | fuel + 1, fb, blk =>
    match readNext s.mem fb with
    | none => none
    | some none => some fb
    | some (some x) => if x < blk then freeScan s fuel x blk else some fb

/-- `my_free(address)` (functional content).  `addr = none` is the C `NULL`
no-op.  When `_firstFreeBlock` is `NULL`, the comparison
`block < freeblock` is false (a real address is never below `NULL`), so the
else branch runs and `freeblock->next` dereferences `NULL`: stuck. -/
def my_free (s : AllocState) (addr : Option Nat) : Option AllocState :=
  match addr with
  | none => some s
  | some a =>
    if a < HEADER_SIZE then none -- pointer below the arena base: undefined
    else
      let blk := a - HEADER_SIZE
      match s.firstFreeBlock with
      | none => none -- else branch dereferences the NULL freeblock
      | some f =>
        if blk < f then
          -- insert at beginning
          let s1 := { s with mem := setNext s.mem blk (some f) }
          let s2 := { s1 with firstFreeBlock := some blk }
          match readNext s2.mem blk with
          | none => none
          | some q => merge_blocks s2 blk q
        else
          match freeScan s (s.heapSize + 1) f blk with
          | none => none
          | some fb =>
            match readNext s.mem fb with
            | none => none
            | some q =>
              -- both the append and the middle-insert branch do this
              let s1 := { s with mem := setNext s.mem blk q }
              let s2 := { s1 with mem := setNext s1.mem fb (some blk) }
              match readNext s2.mem blk with
              | none => none
              | some q2 =>
                match merge_blocks s2 blk q2 with
                | none => none
                | some s3 => merge_blocks s3 fb (some blk)

/-- The address-order enumeration of all blocks (part (a) of
`dumpAllocator`, driven by `_getNextBlockBySize`), collecting each block's
offset and header. -/
def walkAll (s : AllocState) : Nat → Nat → Option (List (Nat × Header))
  | 0, _ => none
  | fuel + 1, o =>
    match lookupH s.mem o with
    | none => none
    | some h =>
      if h.size < HEADER_SIZE then none
      else if s.heapSize < o + h.size then none
      else if o + h.size = s.heapSize then some [(o, h)]
      else
        match walkAll s fuel (o + h.size) with
        | none => none
        | some l => some ((o, h) :: l)

/-- The free-list enumeration (part (b) of `dumpAllocator`), collecting the
offsets reachable from a free-list pointer via `next`. -/
def walkFree (s : AllocState) : Nat → Option Nat → Option (List Nat)
  | 0, _ => none
  | _ + 1, none => some []
  | fuel + 1, some o =>
    match readNext s.mem o with
    | none => none
    | some q =>
      match walkFree s fuel q with
      | none => none
      | some l => some (o :: l)

/-! ## The lock discipline, as event traces

Each public operation's `pthread_mutex_lock`/`pthread_mutex_unlock` calls,
in program order along each control-flow path.  The path is keyed by the
branch outcomes of the function; the traces below transcribe `malloc.c`
line by line. -/

/-- A mutex event on the single global `lock`. -/
inductive LockEv where
  | lock
  | unlock
deriving DecidableEq, Repr

/-- Lock events of `merge_blocks`: locks on entry; the not-neighbors early
`return` skips the unlock at the end. -/
def merge_blocksLock (adjacent : Bool) : List LockEv :=
  [LockEv.lock] ++ (if adjacent then [LockEv.unlock] else [])

/-- Lock events of `allocate_block`: locks on entry; the exact-fit branch
returns before the unlock, only the split branch unlocks. -/
def allocate_blockLock (exactFit : Bool) : List LockEv :=
  [LockEv.lock] ++ (if exactFit then [] else [LockEv.unlock])

/-- Lock events of `my_malloc`: locks on entry; when no block fits it
returns `NULL` without unlocking; otherwise it unlocks and then calls
`allocate_block`, which locks again. -/
def my_mallocLock (found exactFit : Bool) : List LockEv :=
  [LockEv.lock] ++
    (if found then [LockEv.unlock] ++ allocate_blockLock exactFit else [])

/-- Lock events of `my_free`: locks on entry; the `NULL`-argument path
returns without unlocking; otherwise the one (head-insert) or two
(middle/append insert) `merge_blocks` calls run while the lock is held,
then it unlocks. -/
def my_freeLock (isNull headInsert adj1 adj2 : Bool) : List LockEv :=
  [LockEv.lock] ++
    (if isNull then []
     else
       (if headInsert then merge_blocksLock adj1
        else merge_blocksLock adj1 ++ merge_blocksLock adj2) ++ [LockEv.unlock])

/-- Lock events of `dumpAllocator`: one acquisition around the whole walk. -/
def dumpAllocatorLock : List LockEv := [LockEv.lock, LockEv.unlock]

/-- Number of acquisitions in a trace. -/
def lockCount (t : List LockEv) : Nat := t.count LockEv.lock

/-- Whether the trace ever acquires the (non-recursive) mutex while already
holding it — with the default `pthread_mutex_init` attributes this
deadlocks. -/
def relockWhileHeld : Nat → List LockEv → Bool
  | _, [] => false
  | held, LockEv.lock :: t => held != 0 || relockWhileHeld (held + 1) t
  | held, LockEv.unlock :: t => relockWhileHeld (held - 1) t

/-- The discipline §5 of the spec demands of a public operation: exactly
one acquisition, never re-entered, and the lock released by the end. -/
def singleCriticalSection (t : List LockEv) : Prop :=
  lockCount t = 1 ∧ relockWhileHeld 0 t = false ∧
    t.getLast? = some LockEv.unlock

/-! ## The data-model invariants (§3 of the spec) -/

/-- Structural check of the address-ordered block sequence: starting at
offset `o`, the listed blocks tile the arena up to offset `o2`, each with
`HEADER_SIZE ≤ size` and `size` a multiple of 16. -/
def chainSeg : Nat → Nat → List (Nat × Header) → Bool
  | o, o2, [] => o == o2
  | o, o2, e :: t =>
    e.1 == o && decide (HEADER_SIZE ≤ e.2.size) && e.2.size % 16 == 0 &&
      chainSeg (o + e.2.size) o2 t

/-- Every listed block's header is what the arena holds at its offset. -/
def memAgrees (m : Mem) (bs : List (Nat × Header)) : Prop :=
  ∀ e ∈ bs, lookupH m e.1 = some e.2

instance (m : Mem) (bs : List (Nat × Header)) : Decidable (memAgrees m bs) :=
  List.decidableBAll _ bs

/-- `true` on free headers (ones whose union word is a next pointer). -/
def isFree (h : Header) : Bool :=
  match h.link with
  | Link.next _ => true
  | _ => false

/-- The free blocks of the address-ordered sequence, in address order. -/
def freeBlocks (bs : List (Nat × Header)) : List (Nat × Header) :=
  bs.filter fun e => isFree e.2

/-- Offset of the first listed block (`none` when empty). -/
def headOffO : List (Nat × Header) → Option Nat
  | [] => none
  | e :: _ => some e.1

/-- Offset of the first listed block, falling back to `t` when empty. -/
def headOffD : List (Nat × Header) → Option Nat → Option Nat
  | [], t => t
  | e :: _, _ => some e.1

/-- Each listed free block's stored `next` is the following free block's
offset, the last one storing `t`. -/
def chainNextTo : List (Nat × Header) → Option Nat → Bool
  | [], _ => true
  | e :: rest, t =>
    e.2.link == Link.next (headOffD rest t) && chainNextTo rest t

/-- Each free block's stored `next` is the following free block's offset
(`none` at the end): invariant 3 of §3. -/
def chainNext (l : List (Nat × Header)) : Bool :=
  chainNextTo l none

/-- Two blocks in address order are not physically adjacent. -/
def notAdj (a b : Nat × Header) : Prop := a.1 + a.2.size ≠ b.1

/-- The full between-operations invariant of §3, with `bs` the
address-ordered block sequence and `L` the payload offsets handed out by
`my_malloc` and not yet freed. -/
structure GoodState (s : AllocState) (L : List Nat)
    (bs : List (Nat × Header)) : Prop where
  shape : chainSeg 0 s.heapSize bs = true
  mem_ok : memAgrees s.mem bs
  ff_eq : s.firstFreeBlock = headOffO (freeBlocks bs)
  links : chainNext (freeBlocks bs) = true
  noadj : List.Chain' notAdj (freeBlocks bs)
  live : ∀ e ∈ bs, (e.2.link = Link.magic ↔ (e.1 + HEADER_SIZE) ∈ L)
  live_sub : ∀ p ∈ L, ∃ e ∈ bs, p = e.1 + HEADER_SIZE
  noundef : ∀ e ∈ bs, e.2.link ≠ Link.undef
  nodupL : L.Nodup

/-- A state (with its outstanding allocations) satisfying the invariants
for some block sequence. -/
def Inv (s : AllocState) (L : List Nat) : Prop :=
  ∃ bs, GoodState s L bs

/-- Constraints on the compile-time constant `HEAP_SIZE`: positive,
16-aligned (the array is `aligned(HEADER_SIZE)` and a multiple of it) and
representable. -/
def goodHS (hs : Nat) : Prop := 0 < hs ∧ hs % 16 = 0 ∧ hs < U64

/-- Record a returned pointer as outstanding. -/
def pushPtr : Option Nat → List Nat → List Nat
  | none, L => L
  | some p, L => p :: L

/-- States reachable from `initAllocator` by `my_malloc` / `my_free` calls
respecting the documented contracts: any `uint64_t` request size, and
`my_free` only on `NULL` or an outstanding pointer.  Steps that crash or
hit undefined behaviour end the program and yield no state. -/
inductive Reach (hs : Nat) : AllocState → List Nat → Prop where
  | init : Reach hs (initAllocator hs) []
  | step_malloc {s L n s2 r} : Reach hs s L → n < U64 →
      my_malloc s n = some (s2, r) → Reach hs s2 (pushPtr r L)
  | step_free_null {s L s2} : Reach hs s L →
      my_free s none = some s2 → Reach hs s2 L
  | step_free {s L p s2} : Reach hs s L → p ∈ L →
      my_free s (some p) = some s2 → Reach hs s2 (L.erase p)

/-- The first-fit choice on the free list: offset of the first free block
with `needed ≤ size`. -/
def firstFit (fs : List (Nat × Header)) (needed : Nat) : Option Nat :=
  (fs.find? fun e => decide (needed ≤ e.2.size)).map (·.1)

instance : DecidableRel notAdj := fun a b => by
  unfold notAdj; infer_instance

/-! ## Arena read/write lemmas -/

theorem lookupH_writeH_self (m : Mem) (o : Nat) (h : Header) :
    lookupH (writeH m o h) o = some h := by
  induction m with
  | nil => simp [writeH, lookupH]
  | cons e t ih =>
    by_cases hk : e.1 = o
    · simp [writeH, hk, lookupH]
    · simp [writeH, hk, lookupH, ih]

theorem lookupH_writeH_ne (m : Mem) (o o1 : Nat) (h : Header)
    (hne : o1 ≠ o) : lookupH (writeH m o h) o1 = lookupH m o1 := by
  have hne2 : ¬ o = o1 := fun hx => hne hx.symm
  induction m with
  | nil => simp [writeH, lookupH, hne2]
  | cons e t ih =>
    by_cases hk : e.1 = o
    · subst hk
      simp [writeH, lookupH, hne2]
    · by_cases hk1 : e.1 = o1
      · simp [writeH, hk, lookupH, hk1, hne]
      · simp [writeH, hk, lookupH, hk1, ih]

theorem lookupH_setSize_self (m : Mem) (o v : Nat) (h : Header)
    (hl : lookupH m o = some h) :
    lookupH (setSize m o v) o = some ⟨v, h.link⟩ := by
  simp [setSize, hl, lookupH_writeH_self]

theorem lookupH_setSize_ne (m : Mem) (o o1 v : Nat) (hne : o1 ≠ o) :
    lookupH (setSize m o v) o1 = lookupH m o1 := by
  unfold setSize
  cases lookupH m o <;> simp [lookupH_writeH_ne _ _ _ _ hne]

theorem lookupH_setNext_self (m : Mem) (o : Nat) (v : Option Nat)
    (h : Header) (hl : lookupH m o = some h) :
    lookupH (setNext m o v) o = some ⟨h.size, Link.next v⟩ := by
  simp [setNext, hl, lookupH_writeH_self]

theorem lookupH_setNext_ne (m : Mem) (o o1 : Nat) (v : Option Nat)
    (hne : o1 ≠ o) : lookupH (setNext m o v) o1 = lookupH m o1 := by
  unfold setNext
  cases lookupH m o <;> simp [lookupH_writeH_ne _ _ _ _ hne]

theorem lookupH_setMagic_self (m : Mem) (o : Nat) (h : Header)
    (hl : lookupH m o = some h) :
    lookupH (setMagic m o) o = some ⟨h.size, Link.magic⟩ := by
  simp [setMagic, hl, lookupH_writeH_self]

theorem lookupH_setMagic_ne (m : Mem) (o o1 : Nat) (hne : o1 ≠ o) :
    lookupH (setMagic m o) o1 = lookupH m o1 := by
  unfold setMagic
  cases lookupH m o <;> simp [lookupH_writeH_ne _ _ _ _ hne]

/-! ## Chain-segment lemmas -/

/-- End offset of a block run starting at `o`. -/
def endOff : Nat → List (Nat × Header) → Nat
  | o, [] => o
  | o, e :: t => endOff (o + e.2.size) t

theorem chainSeg_cons {o o2 : Nat} {e : Nat × Header}
    {t : List (Nat × Header)} :
    chainSeg o o2 (e :: t) = true ↔
      e.1 = o ∧ 16 ≤ e.2.size ∧ e.2.size % 16 = 0 ∧
        chainSeg (o + e.2.size) o2 t = true := by
  simp only [chainSeg, Bool.and_eq_true, beq_iff_eq, decide_eq_true_eq,
    HEADER_SIZE]
  tauto

theorem chainSeg_nil {o o2 : Nat} : chainSeg o o2 [] = true ↔ o = o2 := by
  simp [chainSeg]

theorem chainSeg_append (X Y : List (Nat × Header)) (o o3 : Nat) :
    chainSeg o o3 (X ++ Y) = true ↔
      chainSeg o (endOff o X) X = true ∧ chainSeg (endOff o X) o3 Y = true := by
  induction X generalizing o with
  | nil => simp [chainSeg, endOff]
  | cons e t ih =>
    simp only [List.cons_append, chainSeg_cons, endOff, ih]
    tauto

theorem chainSeg_le {o o2 : Nat} {l : List (Nat × Header)}
    (h : chainSeg o o2 l = true) : o ≤ o2 := by
  induction l generalizing o with
  | nil => rw [chainSeg_nil] at h; omega
  | cons e t ih =>
    obtain ⟨-, -, -, h4⟩ := chainSeg_cons.mp h
    have := ih h4
    omega

theorem chainSeg_size_pos {o o2 : Nat} {l : List (Nat × Header)}
    (h : chainSeg o o2 l = true) :
    ∀ e ∈ l, 16 ≤ e.2.size ∧ e.2.size % 16 = 0 := by
  induction l generalizing o with
  | nil => simp
  | cons e t ih =>
    obtain ⟨-, h2, h3, h4⟩ := chainSeg_cons.mp h
    intro x hx
    rw [List.mem_cons] at hx
    rcases hx with hx | hx
    · subst hx; exact ⟨h2, h3⟩
    · exact ih h4 x hx

theorem chainSeg_mem_bounds {o o2 : Nat} {l : List (Nat × Header)}
    (h : chainSeg o o2 l = true) :
    ∀ e ∈ l, o ≤ e.1 ∧ e.1 + e.2.size ≤ o2 := by
  induction l generalizing o with
  | nil => simp
  | cons e t ih =>
    obtain ⟨h1, h2, h3, h4⟩ := chainSeg_cons.mp h
    intro x hx
    rw [List.mem_cons] at hx
    rcases hx with hx | hx
    · subst hx
      have := chainSeg_le h4
      omega
    · have := ih h4 x hx
      omega

theorem chainSeg_length {o o2 : Nat} {l : List (Nat × Header)}
    (h : chainSeg o o2 l = true) : o + 16 * l.length ≤ o2 := by
  induction l generalizing o with
  | nil => rw [chainSeg_nil] at h; simp; omega
  | cons e t ih =>
    obtain ⟨-, h2, -, h4⟩ := chainSeg_cons.mp h
    have := ih h4
    simp only [List.length_cons]
    omega

/-! ## `roundUp` characterisation -/

theorem land_mask_eq (x : Nat) (hx : x < U64) :
    x &&& 0xFFFFFFFFFFFFFFF0 = x / 16 * 16 := by
  have hmask : (0xFFFFFFFFFFFFFFF0 : Nat) = (2 ^ 60 - 1) <<< 4 := by rfl
  have hx16 : x / 16 * 16 = (x >>> 4) <<< 4 := by
    rw [Nat.shiftRight_eq_div_pow, Nat.shiftLeft_eq]
  rw [hmask, hx16]
  apply Nat.eq_of_testBit_eq
  intro i
  rw [Nat.testBit_land, Nat.testBit_shiftLeft, Nat.testBit_shiftLeft,
    Nat.testBit_two_pow_sub_one, Nat.testBit_shiftRight]
  by_cases h4 : 4 ≤ i
  · by_cases h64 : i < 64
    · have : 4 + (i - 4) = i := by omega
      simp [h4, this, h64, show i - 4 < 60 by omega]
    · have hxi : x.testBit i = false := by
        apply Nat.testBit_lt_two_pow
        calc x < U64 := hx
          _ ≤ 2 ^ i := Nat.pow_le_pow_right (by norm_num) (by omega)
      have : 4 + (i - 4) = i := by omega
      simp [h4, this, hxi, show ¬ (i - 4 < 60) by omega]
  · simp [h4]

theorem roundUp_eq (n : Nat) : roundUp n = (n + 15) % U64 / 16 * 16 :=
  land_mask_eq _ (Nat.mod_lt _ (by unfold U64; norm_num))

theorem roundUp_lt (n : Nat) : roundUp n < U64 := by
  rw [roundUp_eq]
  have h1 : (n + 15) % U64 < U64 := Nat.mod_lt _ (by unfold U64; norm_num)
  have := Nat.div_mul_le_self ((n + 15) % U64) 16
  omega

theorem roundUp_mod16 (n : Nat) : roundUp n % 16 = 0 := by
  rw [roundUp_eq]
  simp [Nat.mul_mod_left]

/-- Without 64-bit wraparound, `roundUp` is ordinary rounding up to a
multiple of 16. -/
theorem roundUp_spec (n : Nat) (hn : n ≤ U64 - 16) :
    roundUp n = (n + 15) / 16 * 16 := by
  rw [roundUp_eq, Nat.mod_eq_of_lt (by unfold U64 at hn ⊢; omega)]

theorem roundUp_ge (n : Nat) (hn : n ≤ U64 - 16) : n ≤ roundUp n := by
  rw [roundUp_spec n hn]
  have h1 := Nat.div_add_mod (n + 15) 16
  have h2 : (n + 15) % 16 < 16 := Nat.mod_lt _ (by norm_num)
  omega

theorem roundUp_le (n : Nat) (hn : n ≤ U64 - 16) : roundUp n ≤ n + 15 := by
  rw [roundUp_spec n hn]
  exact Nat.div_mul_le_self _ _

/-! ## Free-list decomposition lemmas -/

theorem headOffD_append (X Y : List (Nat × Header)) (t : Option Nat) :
    headOffD (X ++ Y) t = headOffD X (headOffD Y t) := by
  cases X <;> simp [headOffD]

theorem chainNextTo_append (X Y : List (Nat × Header)) (t : Option Nat) :
    chainNextTo (X ++ Y) t =
      (chainNextTo X (headOffD Y t) && chainNextTo Y t) := by
  induction X with
  | nil => simp [chainNextTo]
  | cons e X ih =>
    simp only [List.cons_append, chainNextTo, List.append_eq, ih,
      headOffD_append, Bool.and_assoc]

theorem chainNextTo_cons (e : Nat × Header) (l : List (Nat × Header))
    (t : Option Nat) :
    chainNextTo (e :: l) t = true ↔
      e.2.link = Link.next (headOffD l t) ∧ chainNextTo l t = true := by
  simp [chainNextTo]

theorem freeBlocks_append (X Y : List (Nat × Header)) :
    freeBlocks (X ++ Y) = freeBlocks X ++ freeBlocks Y :=
  List.filter_append _ _

theorem freeBlocks_cons_free {e : Nat × Header} (he : isFree e.2 = true)
    (l : List (Nat × Header)) : freeBlocks (e :: l) = e :: freeBlocks l := by
  simp [freeBlocks, List.filter_cons, he]

theorem freeBlocks_cons_notfree {e : Nat × Header} (he : ¬ isFree e.2 = true)
    (l : List (Nat × Header)) : freeBlocks (e :: l) = freeBlocks l := by
  simp [freeBlocks, List.filter_cons, he]

theorem freeBlocks_sub {e : Nat × Header} {l : List (Nat × Header)}
    (he : e ∈ freeBlocks l) : e ∈ l :=
  (List.mem_filter.mp he).1

theorem isFree_of_mem_freeBlocks {e : Nat × Header} {l : List (Nat × Header)}
    (he : e ∈ freeBlocks l) : isFree e.2 = true :=
  (List.mem_filter.mp he).2

/-- If some entry of `l` satisfies the fit predicate, `l` splits at the
first such entry, and `firstFit` returns its offset. -/
theorem exists_first_fit (needed : Nat) :
    ∀ l : List (Nat × Header), (∃ e ∈ l, needed ≤ e.2.size) →
      ∃ A e B, l = A ++ e :: B ∧ (∀ x ∈ A, x.2.size < needed) ∧
        needed ≤ e.2.size ∧ firstFit l needed = some e.1 := by
  intro l
  induction l with
  | nil => simp
  | cons a l ih =>
    intro hex
    by_cases ha : needed ≤ a.2.size
    · exact ⟨[], a, l, by simp, by simp, ha, by simp [firstFit, List.find?, ha]⟩
    · have hex2 : ∃ e ∈ l, needed ≤ e.2.size := by
        obtain ⟨e, he, hfit⟩ := hex
        rw [List.mem_cons] at he
        rcases he with rfl | he
        · exact absurd hfit ha
        · exact ⟨e, he, hfit⟩
      obtain ⟨A, e, B, h1, h2, h3, h4⟩ := ih hex2
      refine ⟨a :: A, e, B, by simp [h1], ?_, h3, ?_⟩
      · intro x hx
        rw [List.mem_cons] at hx
        rcases hx with rfl | hx
        · omega
        · exact h2 x hx
      · simpa [firstFit, List.find?, decide_eq_true_eq, ha] using h4

/-- A decomposition of the free sublist lifts to a decomposition of the
whole block list. -/
theorem freeBlocks_split :
    ∀ (bs A B : List (Nat × Header)) (e : Nat × Header),
      freeBlocks bs = A ++ e :: B →
      ∃ pre post, bs = pre ++ e :: post ∧ freeBlocks pre = A ∧
        freeBlocks post = B := by
  intro bs
  induction bs with
  | nil => intro A B e h; simp [freeBlocks] at h
  | cons x t ih =>
    intro A B e h
    by_cases hx : isFree x.2 = true
    · rw [freeBlocks_cons_free hx] at h
      cases A with
      | nil =>
        simp only [List.nil_append] at h
        obtain ⟨rfl, h2⟩ := List.cons.inj h
        exact ⟨[], t, rfl, rfl, h2.symm ▸ rfl⟩
      | cons a A =>
        simp only [List.cons_append] at h
        have hxa : x = a := (List.cons.inj h).1
        have h2 : freeBlocks t = A ++ e :: B := (List.cons.inj h).2
        obtain ⟨pre, post, rfl, hA, hB⟩ := ih A B e h2
        exact ⟨x :: pre, post, rfl,
          by rw [freeBlocks_cons_free hx, hA, hxa], hB⟩
    · rw [freeBlocks_cons_notfree hx] at h
      obtain ⟨pre, post, rfl, hA, hB⟩ := ih A B e h
      exact ⟨x :: pre, post, rfl, by rw [freeBlocks_cons_notfree hx, hA], hB⟩

/-- The slot referencing the block after the run `A` of rejected free
blocks: the original slot when `A` is empty, else the last rejected
block's `next` field. -/
def slotAfter (sl : Slot) : List (Nat × Header) → Slot
  | [] => sl
  | e :: A => slotAfter (Slot.nextOf e.1) A

theorem slotAfter_cons (sl : Slot) (e : Nat × Header)
    (A : List (Nat × Header)) :
    slotAfter sl (e :: A) = slotAfter (Slot.nextOf e.1) A := rfl

theorem slotAfter_concat (e : Nat × Header) :
    ∀ (A : List (Nat × Header)) (sl : Slot),
      slotAfter sl (A ++ [e]) = Slot.nextOf e.1 := by
  intro A
  induction A with
  | nil => intro sl; rfl
  | cons f A ih => intro sl; exact ih (Slot.nextOf f.1)

/-! ## `findFit` characterisation -/

theorem findFit_found (s : AllocState) (needed : Nat) :
    ∀ (A : List (Nat × Header)) (e : Nat × Header)
      (B : List (Nat × Header)) (sl : Slot) (fuel : Nat),
      (∀ x ∈ A ++ e :: B, lookupH s.mem x.1 = some x.2) →
      chainNextTo (A ++ e :: B) none = true →
      (∀ x ∈ A, x.2.size < needed) →
      needed ≤ e.2.size →
      A.length < fuel →
      findFit s fuel sl (headOffD (A ++ e :: B) none) needed =
        some (some (slotAfter sl A, e.1)) := by
  intro A
  induction A with
  | nil =>
    intro e B sl fuel hlk hch hA hfit hfuel
    cases fuel with
    | zero => omega
    | succ fuel =>
      have hl := hlk e (by simp)
      simp [headOffD, findFit, hl, hfit, slotAfter]
  | cons a A ih =>
    intro e B sl fuel hlk hch hA hfit hfuel
    cases fuel with
    | zero => omega
    | succ fuel =>
      have hl := hlk a (by simp)
      have ha := hA a (by simp)
      obtain ⟨hlink, hch2⟩ := (chainNextTo_cons _ _ _).mp hch
      rw [List.cons_append, headOffD] at *
      simp only [findFit, hl, if_neg (by omega : ¬ needed ≤ a.2.size), hlink]
      rw [slotAfter_cons]
      exact ih e B (Slot.nextOf a.1) fuel
        (fun x hx => hlk x (by simp [hx])) hch2
        (fun x hx => hA x (by simp [hx])) hfit (by simpa using hfuel)

theorem findFit_none (s : AllocState) (needed : Nat) :
    ∀ (fs : List (Nat × Header)) (sl : Slot) (fuel : Nat),
      (∀ x ∈ fs, lookupH s.mem x.1 = some x.2) →
      chainNextTo fs none = true →
      (∀ x ∈ fs, x.2.size < needed) →
      fs.length < fuel →
      findFit s fuel sl (headOffD fs none) needed = some none := by
  intro fs
  induction fs with
  | nil =>
    intro sl fuel _ _ _ hfuel
    cases fuel with
    | zero => omega
    | succ fuel => simp [headOffD, findFit]
  | cons a fs ih =>
    intro sl fuel hlk hch hA hfuel
    cases fuel with
    | zero => omega
    | succ fuel =>
      have hl := hlk a (by simp)
      have ha := hA a (by simp)
      obtain ⟨hlink, hch2⟩ := (chainNextTo_cons _ _ _).mp hch
      simp only [headOffD, findFit, hl, if_neg (by omega : ¬ needed ≤ a.2.size),
        hlink]
      exact ih (Slot.nextOf a.1) fuel (fun x hx => hlk x (by simp [hx])) hch2
        (fun x hx => hA x (by simp [hx])) (by simpa using hfuel)

/-! ## Chain-surgery helpers -/

theorem endOff_eq_of_chainSeg {o o2 : Nat} {l : List (Nat × Header)}
    (h : chainSeg o o2 l = true) : endOff o l = o2 := by
  induction l generalizing o with
  | nil => rw [chainSeg_nil] at h; simpa [endOff] using h
  | cons e t ih =>
    obtain ⟨-, -, -, h4⟩ := chainSeg_cons.mp h
    exact ih h4

/-- Offset-and-size agreement between block entries. -/
def sameGeom (e e2 : Nat × Header) : Prop :=
  e.1 = e2.1 ∧ e.2.size = e2.2.size

theorem forall₂_sameGeom_refl (l : List (Nat × Header)) :
    List.Forall₂ sameGeom l l :=
  List.forall₂_same.mpr fun _ _ => ⟨rfl, rfl⟩

theorem forall₂_append {R : (Nat × Header) → (Nat × Header) → Prop}
    {l1 l2 u1 u2 : List (Nat × Header)} (h1 : List.Forall₂ R l1 l2)
    (h2 : List.Forall₂ R u1 u2) : List.Forall₂ R (l1 ++ u1) (l2 ++ u2) := by
  induction h1 with
  | nil => exact h2
  | cons he ht ih => exact List.Forall₂.cons he ih

theorem chainSeg_of_forall₂ {l l2 : List (Nat × Header)}
    (hf : List.Forall₂ sameGeom l l2) :
    ∀ {o o2 : Nat}, chainSeg o o2 l = true → chainSeg o o2 l2 = true := by
  induction hf with
  | nil => intro o o2 h; exact h
  | cons he ht ih =>
    intro o o2 h
    obtain ⟨h1, h2, h3, h4⟩ := chainSeg_cons.mp h
    obtain ⟨hoff, hsz⟩ := he
    refine chainSeg_cons.mpr ⟨by omega, by omega, by omega, ?_⟩
    rw [← hsz]
    exact ih h4

theorem memAgrees_mono {m m2 : Mem} {l : List (Nat × Header)}
    (h : memAgrees m l) (heq : ∀ e ∈ l, lookupH m2 e.1 = lookupH m e.1) :
    memAgrees m2 l :=
  fun e he => (heq e he).trans (h e he)

theorem headOffO_eq_headOffD (l : List (Nat × Header)) :
    headOffO l = headOffD l none := by
  cases l <;> rfl

/-- Any two distinct blocks of a chain segment occupy disjoint spans. -/
theorem chainSeg_disjoint {o o2 : Nat} {l : List (Nat × Header)}
    (h : chainSeg o o2 l = true) :
    ∀ e ∈ l, ∀ x ∈ l, e.1 ≠ x.1 →
      e.1 + e.2.size ≤ x.1 ∨ x.1 + x.2.size ≤ e.1 := by
  induction l generalizing o with
  | nil => simp
  | cons a t ih =>
    obtain ⟨h1, h2, h3, h4⟩ := chainSeg_cons.mp h
    intro e he x hx hne
    rw [List.mem_cons] at he hx
    have hbt := chainSeg_mem_bounds h4
    have hlet := chainSeg_le h4
    rcases he with rfl | he <;> rcases hx with rfl | hx
    · omega
    · have := hbt x hx; omega
    · have := hbt e he; omega
    · exact ih h4 e he x hx hne

/-- The standard facts from splitting a good chain at one block. -/
theorem split_ctx {s : AllocState} {L bs pre post : List _} {bo : Nat}
    {bh : Header} (G : GoodState s L bs)
    (hbs : bs = pre ++ (bo, bh) :: post) :
    chainSeg 0 bo pre = true ∧ 16 ≤ bh.size ∧ bh.size % 16 = 0 ∧
      chainSeg (bo + bh.size) s.heapSize post = true ∧
      bo + bh.size ≤ s.heapSize ∧
      (∀ e ∈ pre, e.1 + e.2.size ≤ bo ∧ 16 ≤ e.2.size) ∧
      (∀ e ∈ post, bo + bh.size ≤ e.1 ∧ e.1 + e.2.size ≤ s.heapSize) := by
  have hs := G.shape
  rw [hbs, chainSeg_append] at hs
  obtain ⟨hpre, hrest⟩ := hs
  obtain ⟨hoff, h16, hmod, hpost⟩ := chainSeg_cons.mp hrest
  rw [← hoff] at hpre hpost
  refine ⟨hpre, h16, hmod, hpost, chainSeg_le hpost, ?_, ?_⟩
  · intro e he
    have := chainSeg_mem_bounds hpre e he
    have := chainSeg_size_pos hpre e he
    omega
  · intro e he
    exact chainSeg_mem_bounds hpost e he

/-! ## `allocate_block` computation lemmas -/

theorem allocate_block_exact {s : AllocState} {sl : Slot} {bo needed : Nat}
    {bh : Header} {q : Option Nat}
    (hlk : lookupH s.mem bo = some bh) (hlink : bh.link = Link.next q)
    (hsz : bh.size = needed) :
    allocate_block s sl bo needed =
      some ({ writeSlot s sl q with
                mem := setMagic (writeSlot s sl q).mem bo },
        bo + HEADER_SIZE) := by
  obtain ⟨bsz, blink⟩ := bh
  simp only at hlink hsz
  subst hlink hsz
  unfold allocate_block readNext
  rw [hlk]
  simp

theorem allocate_block_split {s : AllocState} {sl : Slot} {bo needed : Nat}
    {bh : Header} {q : Option Nat}
    (hlk : lookupH s.mem bo = some bh) (hlink : bh.link = Link.next q)
    (hlt : needed < bh.size) (h16 : 16 ≤ needed)
    (hbound : bo + bh.size ≤ s.heapSize) :
    allocate_block s sl bo needed =
      some (writeSlot
        { s with
            mem := setMagic (setNext (setSize (setSize s.mem bo needed)
              (bo + needed) (bh.size - needed)) (bo + needed) q) bo }
        sl (some (bo + needed)), bo + HEADER_SIZE) := by
  have hlk1 : lookupH (setSize s.mem bo needed) bo = some ⟨needed, bh.link⟩ :=
    lookupH_setSize_self _ _ _ _ hlk
  have hne : bo + needed ≠ bo := by omega
  have hlk2 : lookupH (setSize (setSize s.mem bo needed) (bo + needed)
      (bh.size - needed)) bo = some ⟨needed, bh.link⟩ := by
    rw [lookupH_setSize_ne _ _ _ _ (by omega : (bo : Nat) ≠ bo + needed)]
    exact hlk1
  have hnx : getNextBlockBySize { s with mem := setSize s.mem bo needed } bo =
      some (some (bo + needed)) := by
    unfold getNextBlockBySize
    have c1 : ¬ (needed < HEADER_SIZE) := by unfold HEADER_SIZE; omega
    have c2 : ¬ (s.heapSize < bo + needed) := by omega
    have c3 : ¬ (bo + needed = s.heapSize) := by omega
    simp [hlk1, c1, c2, c3]
  have hrn : readNext (setSize (setSize s.mem bo needed) (bo + needed)
      (bh.size - needed)) bo = some q := by
    unfold readNext
    rw [hlk2, hlink]
  unfold allocate_block
  rw [hlk]
  simp only [if_neg (show ¬ (bh.size < needed) by omega),
    if_neg (show ¬ (bh.size = needed) by omega), hnx, hrn]

theorem lookupH_setSize_isSome (m : Mem) (o v : Nat) :
    ∃ lk, lookupH (setSize m o v) o = some ⟨v, lk⟩ := by
  unfold setSize
  cases h : lookupH m o with
  | none => exact ⟨Link.undef, lookupH_writeH_self _ _ _⟩
  | some h0 => exact ⟨h0.link, lookupH_writeH_self _ _ _⟩

/-! ## `my_malloc` success: preservation of the invariant -/

theorem my_malloc_good_exact {s : AllocState} {L : List Nat}
    {bs pre post : List (Nat × Header)} {bo n needed : Nat} {bh : Header}
    {q : Option Nat}
    (G : GoodState s L bs)
    (hneed : (roundUp n + HEADER_SIZE) % U64 = needed)
    (hbs : bs = pre ++ (bo, bh) :: post)
    (hlink : bh.link = Link.next q)
    (hA : ∀ x ∈ freeBlocks pre, x.2.size < needed)
    (hsz : bh.size = needed) :
    ∃ s2 bs2, my_malloc s n = some (s2, some (bo + HEADER_SIZE)) ∧
      GoodState s2 ((bo + HEADER_SIZE) :: L) bs2 ∧
      (bo, Header.mk bh.size Link.magic) ∈ bs2 ∧
      s2.heapSize = s.heapSize := by
  obtain ⟨hpre, h16, hmod, hpost, hbound, hprebnd, hpostbnd⟩ := split_ctx G hbs
  have hfreebh : isFree bh = true := by simp [isFree, hlink]
  have hfs : freeBlocks bs = freeBlocks pre ++ (bo, bh) :: freeBlocks post := by
    rw [hbs, freeBlocks_append, freeBlocks_cons_free hfreebh]
  -- links decomposition
  have hlinks := G.links
  rw [chainNext, hfs, chainNextTo_append, Bool.and_eq_true] at hlinks
  obtain ⟨hlA, hlBB⟩ := hlinks
  obtain ⟨hlbo, hlB⟩ := (chainNextTo_cons _ _ _).mp hlBB
  have hq : headOffD (freeBlocks post) none = q := by
    rw [hlink] at hlbo
    exact (Link.next.inj hlbo).symm
  -- the head pointer
  have hff : s.firstFreeBlock =
      headOffD (freeBlocks pre ++ (bo, bh) :: freeBlocks post) none := by
    rw [G.ff_eq, hfs, headOffO_eq_headOffD]
  -- membership of free blocks in the arena
  have hmem : ∀ x ∈ freeBlocks pre ++ (bo, bh) :: freeBlocks post,
      lookupH s.mem x.1 = some x.2 := by
    intro x hx
    exact G.mem_ok x (by rw [← hfs] at hx; exact freeBlocks_sub hx)
  -- fuel
  have hlen : 16 * bs.length ≤ s.heapSize := by
    have := chainSeg_length G.shape
    omega
  have hAlen : (freeBlocks pre).length < s.heapSize + 1 := by
    have h1 : (freeBlocks bs).length ≤ bs.length := List.length_filter_le _ _
    have h2 : (freeBlocks pre).length ≤ (freeBlocks bs).length := by
      rw [hfs]; simp
    omega
  have hfind : findFit s (s.heapSize + 1) Slot.head s.firstFreeBlock needed =
      some (some (slotAfter Slot.head (freeBlocks pre), bo)) := by
    rw [hff]
    exact findFit_found s needed (freeBlocks pre) (bo, bh) (freeBlocks post)
      Slot.head (s.heapSize + 1) hmem (by rw [← hfs]; exact G.links) hA
      (by simpa using hsz.ge) hAlen
  have hlkbo : lookupH s.mem bo = some bh :=
    G.mem_ok (bo, bh) (by rw [hbs]; simp)
  -- key position facts
  have hbo_pre : ∀ e ∈ pre, e.1 < bo := by
    intro e he
    have := hprebnd e he
    omega
  have hbo_post : ∀ e ∈ post, bo < e.1 := by
    intro e he
    have := hpostbnd e he
    omega
  rcases List.eq_nil_or_concat (freeBlocks pre) with hAe | ⟨A1, alast, hAc0⟩
  · -- the fit is the head of the free list: slot is `_firstFreeBlock`
    have hAnil : freeBlocks pre = [] := hAe
    refine ⟨⟨s.heapSize, setMagic s.mem bo, q⟩,
      pre ++ (bo, ⟨bh.size, Link.magic⟩) :: post, ?_, ?_, by simp, rfl⟩
    · simp only [my_malloc, hneed, hfind, hAnil, slotAfter]
      rw [allocate_block_exact hlkbo hlink hsz]
      rfl
    · constructor
      · -- shape
        refine chainSeg_of_forall₂ ?_ G.shape
        rw [hbs]
        exact forall₂_append (forall₂_sameGeom_refl pre)
          (List.Forall₂.cons ⟨rfl, rfl⟩ (forall₂_sameGeom_refl post))
      · -- mem_ok
        intro e he
        rw [List.mem_append, List.mem_cons] at he
        rcases he with he | he | he
        · rw [lookupH_setMagic_ne _ _ _ (by have := hbo_pre e he; omega)]
          exact G.mem_ok e (by rw [hbs]; simp [he])
        · subst he
          simpa using lookupH_setMagic_self _ _ _ hlkbo
        · rw [lookupH_setMagic_ne _ _ _ (by have := hbo_post e he; omega)]
          exact G.mem_ok e (by rw [hbs]; simp [he])
      · -- ff_eq
        show q = _
        rw [freeBlocks_append,
          freeBlocks_cons_notfree (by simp [isFree]), hAnil,
          List.nil_append, headOffO_eq_headOffD, hq]
      · -- links
        rw [chainNext, freeBlocks_append,
          freeBlocks_cons_notfree (by simp [isFree]), hAnil, List.nil_append]
        exact hlB
      · -- noadj
        rw [freeBlocks_append, freeBlocks_cons_notfree (by simp [isFree]),
          hAnil, List.nil_append]
        have hnoadj := G.noadj
        rw [hfs, hAnil, List.nil_append] at hnoadj
        exact hnoadj.tail
      · -- live
        intro e he
        rw [List.mem_append, List.mem_cons] at he
        rcases he with he | he | he
        · have hl := G.live e (by rw [hbs]; simp [he])
          have : e.1 ≠ bo := by have := hbo_pre e he; omega
          simp only [List.mem_cons]
          rw [hl]
          constructor
          · exact fun hp => Or.inr hp
          · rintro (hp | hp)
            · exfalso; omega
            · exact hp
        · subst he
          simp
        · have hl := G.live e (by rw [hbs]; simp [he])
          have : e.1 ≠ bo := by have := hbo_post e he; omega
          simp only [List.mem_cons]
          rw [hl]
          constructor
          · exact fun hp => Or.inr hp
          · rintro (hp | hp)
            · exfalso; omega
            · exact hp
      · -- live_sub
        intro p hp
        rw [List.mem_cons] at hp
        rcases hp with rfl | hp
        · exact ⟨(bo, ⟨bh.size, Link.magic⟩), by simp, rfl⟩
        · obtain ⟨e, he, rfl⟩ := G.live_sub p hp
          rw [hbs, List.mem_append, List.mem_cons] at he
          rcases he with he | he | he
          · exact ⟨e, by simp [he], rfl⟩
          · exfalso
            have hl := G.live (bo, bh) (by rw [hbs]; simp)
            rw [hlink] at hl
            subst he
            simp at hl
            exact hl hp
          · exact ⟨e, by simp [he], rfl⟩
      · -- noundef
        intro e he
        rw [List.mem_append, List.mem_cons] at he
        rcases he with he | he | he
        · exact G.noundef e (by rw [hbs]; simp [he])
        · subst he; simp
        · exact G.noundef e (by rw [hbs]; simp [he])
      · -- nodupL
        refine List.Nodup.cons ?_ G.nodupL
        intro hmemL
        have hl := G.live (bo, bh) (by rw [hbs]; simp)
        rw [hlink] at hl
        simp at hl
        exact hl hmemL
  · -- the fit is referenced by the last rejected free block's next field
    have hAc : freeBlocks pre = A1 ++ [alast] := by
      rw [hAc0, List.concat_eq_append]
    obtain ⟨pre1, pre2, hpre_eq, hfb1, hfb2⟩ :=
      freeBlocks_split pre A1 [] alast hAc
    obtain ⟨ao, ah⟩ := alast
    have hsl : slotAfter Slot.head (freeBlocks pre) = Slot.nextOf ao := by
      rw [hAc]; exact slotAfter_concat _ _ _
    have hao_pre : (ao, ah) ∈ pre := by rw [hpre_eq]; simp
    have haobo : ao < bo := hbo_pre _ hao_pre
    have hao_free : isFree ah = true :=
      isFree_of_mem_freeBlocks (e := (ao, ah)) (l := pre) (by rw [hAc]; simp)
    have hlkao : lookupH s.mem ao = some ah :=
      G.mem_ok (ao, ah) (by rw [hbs]; simp [hao_pre])
    -- links of the rejected free blocks
    have hlAparts : chainNextTo A1 (some ao) = true ∧
        ah.link = Link.next (some bo) := by
      rw [hAc, chainNextTo_append, Bool.and_eq_true] at hlA
      refine ⟨?_, ?_⟩
      · simpa [headOffD] using hlA.1
      · simpa [headOffD] using ((chainNextTo_cons _ _ _).mp hlA.2).1
    -- decompose pre's chain for position facts
    have hpre2 : chainSeg (ao + ah.size) bo pre2 = true := by
      have := hpre
      rw [hpre_eq, chainSeg_append] at this
      obtain ⟨hp1, hp2⟩ := this
      obtain ⟨ho, -, -, hrest⟩ := chainSeg_cons.mp hp2
      simp only at ho
      rw [← ho] at hrest
      exact hrest
    have hpre2bnd : ∀ e ∈ pre2, ao < e.1 ∧ e.1 < bo := by
      intro e he
      have h1 := chainSeg_mem_bounds hpre2 e he
      have h2 := chainSeg_size_pos hpre2 e he
      have h3 := hprebnd (ao, ah) hao_pre
      simp only at h3
      omega
    have hpre1bnd : ∀ e ∈ pre1, e.1 < ao := by
      have := hpre
      rw [hpre_eq, chainSeg_append] at this
      obtain ⟨hp1, hp2⟩ := this
      obtain ⟨ho, h16a, -, -⟩ := chainSeg_cons.mp hp2
      simp only at ho
      intro e he
      have h1 := chainSeg_mem_bounds hp1 e he
      have h2 := chainSeg_size_pos hp1 e he
      omega
    -- the new memory
    refine ⟨⟨s.heapSize, setMagic (setNext s.mem ao q) bo, s.firstFreeBlock⟩,
      pre1 ++ (ao, ⟨ah.size, Link.next q⟩) :: pre2 ++
        (bo, ⟨bh.size, Link.magic⟩) :: post, ?_, ?_, by simp, rfl⟩
    · simp only [my_malloc, hneed, hfind, hsl]
      rw [allocate_block_exact hlkbo hlink hsz]
      rfl
    · -- lookups in the new memory
      have haone : (ao : Nat) ≠ bo := by omega
      have hlk2ao : lookupH (setMagic (setNext s.mem ao q) bo) ao =
          some ⟨ah.size, Link.next q⟩ := by
        rw [lookupH_setMagic_ne _ _ _ haone]
        exact lookupH_setNext_self _ _ _ _ hlkao
      have hlk2bo : lookupH (setMagic (setNext s.mem ao q) bo) bo =
          some ⟨bh.size, Link.magic⟩ := by
        have : lookupH (setNext s.mem ao q) bo = some bh := by
          rw [lookupH_setNext_ne _ _ _ _ (Ne.symm haone)]
          exact hlkbo
        simpa using lookupH_setMagic_self _ _ _ this
      have hlk2other : ∀ x : Nat, x ≠ ao → x ≠ bo →
          lookupH (setMagic (setNext s.mem ao q) bo) x = lookupH s.mem x := by
        intro x h1 h2
        rw [lookupH_setMagic_ne _ _ _ h2, lookupH_setNext_ne _ _ _ _ h1]
      -- the old list, with `pre` decomposed
      have hbs2 : bs = (pre1 ++ (ao, ah) :: pre2) ++ (bo, bh) :: post := by
        rw [hbs, hpre_eq]
      -- free sublist of the new list
      have hfs2 : freeBlocks (pre1 ++ (ao, ⟨ah.size, Link.next q⟩) :: pre2 ++
          (bo, ⟨bh.size, Link.magic⟩) :: post) =
          A1 ++ (ao, ⟨ah.size, Link.next q⟩) :: freeBlocks post := by
        rw [freeBlocks_append, freeBlocks_append,
          freeBlocks_cons_free (by simp [isFree]), hfb1, hfb2,
          freeBlocks_cons_notfree (by simp [isFree])]
        simp
      constructor
      · -- shape
        refine chainSeg_of_forall₂ ?_ G.shape
        rw [hbs2]
        refine forall₂_append ?_
          (List.Forall₂.cons ⟨rfl, rfl⟩ (forall₂_sameGeom_refl post))
        exact forall₂_append (forall₂_sameGeom_refl pre1)
          (List.Forall₂.cons ⟨rfl, rfl⟩ (forall₂_sameGeom_refl pre2))
      · -- mem_ok
        intro e he
        simp only [List.mem_append, List.mem_cons] at he
        rcases he with (he | he | he) | he | he
        · have h1 := hpre1bnd e he
          rw [hlk2other _ (by omega) (by omega)]
          exact G.mem_ok e (by rw [hbs2]; simp [he])
        · subst he
          exact hlk2ao
        · have h1 := hpre2bnd e he
          rw [hlk2other _ (by omega) (by omega)]
          exact G.mem_ok e (by rw [hbs2]; simp [he])
        · subst he
          exact hlk2bo
        · have h1 := hbo_post e he
          rw [hlk2other _ (by omega) (by omega)]
          exact G.mem_ok e (by rw [hbs2]; simp [he])
      · -- ff_eq
        show s.firstFreeBlock = _
        rw [hfs2, hff, hAc, headOffO_eq_headOffD]
        rw [headOffD_append, headOffD_append, headOffD_append]
        rfl
      · -- links
        rw [chainNext, hfs2, chainNextTo_append, Bool.and_eq_true]
        refine ⟨by simpa [headOffD] using hlAparts.1, ?_⟩
        rw [chainNextTo_cons]
        exact ⟨by rw [hq], hlB⟩
      · -- noadj
        have hnoadj := G.noadj
        rw [hfs, hAc] at hnoadj
        have hre : (A1 ++ [(ao, ah)]) ++ (bo, bh) :: freeBlocks post =
            A1 ++ (ao, ah) :: (bo, bh) :: freeBlocks post := by simp
        rw [hre, List.chain'_append] at hnoadj
        obtain ⟨hc1, hc2, hc3⟩ := hnoadj
        rw [hfs2, List.chain'_append]
        refine ⟨hc1, ?_, ?_⟩
        · rw [List.chain'_cons']
          refine ⟨?_, (List.chain'_cons'.mp (List.chain'_cons'.mp hc2).2).2⟩
          intro y hy
          have hyB := List.mem_of_mem_head? hy
          have hypost := hpostbnd y (freeBlocks_sub hyB)
          have haox := hprebnd (ao, ah) hao_pre
          show ao + ah.size ≠ y.1
          simp only at haox
          omega
        · intro x hx y hy
          have hy2 : y = (ao, ⟨ah.size, Link.next q⟩) := by
            simp [List.head?] at hy
            exact hy.symm
          have := hc3 x hx (ao, ah) (by simp [List.head?])
          subst hy2
          exact this
      · -- live
        intro e he
        simp only [List.mem_append, List.mem_cons] at he
        have hshift : ∀ x : Nat × Header, x ∈ bs → x.1 ≠ bo →
            (x.2.link = Link.magic ↔ x.1 + HEADER_SIZE ∈
              (bo + HEADER_SIZE) :: L) := by
          intro x hxbs hxne
          rw [G.live x hxbs]
          simp only [List.mem_cons]
          constructor
          · exact fun hp => Or.inr hp
          · rintro (hp | hp)
            · exfalso; unfold HEADER_SIZE at hp; omega
            · exact hp
        rcases he with (he | he | he) | he | he
        · exact hshift e (by rw [hbs2]; simp [he])
            (by have := hpre1bnd e he; omega)
        · subst he
          have h0 := G.live (ao, ah) (by rw [hbs2]; simp)
          rw [hlAparts.2] at h0
          simp only at h0
          have hnotin : ao + HEADER_SIZE ∉ L := fun hin =>
            absurd (h0.mpr hin) (by simp)
          show Link.next q = Link.magic ↔
            ao + HEADER_SIZE ∈ (bo + HEADER_SIZE) :: L
          constructor
          · intro hcon
            exact absurd hcon (by simp)
          · intro hp
            rcases List.mem_cons.mp hp with hp | hp
            · exact absurd (by omega : (ao : Nat) = bo) haone
            · exact absurd hp hnotin
        · exact hshift e (by rw [hbs2]; simp [he])
            (by have := hpre2bnd e he; omega)
        · subst he
          simp
        · exact hshift e (by rw [hbs2]; simp [he])
            (by have := hbo_post e he; omega)
      · -- live_sub
        intro p hp
        rw [List.mem_cons] at hp
        rcases hp with rfl | hp
        · exact ⟨(bo, ⟨bh.size, Link.magic⟩), by simp, rfl⟩
        · obtain ⟨e, he, rfl⟩ := G.live_sub p hp
          rw [hbs2] at he
          simp only [List.mem_append, List.mem_cons] at he
          rcases he with (he | he | he) | he | he
          · exact ⟨e, by simp [he], rfl⟩
          · subst he
            exact ⟨(ao, ⟨ah.size, Link.next q⟩), by simp, rfl⟩
          · exact ⟨e, by simp [he], rfl⟩
          · exfalso
            have hl := G.live (bo, bh) (by rw [hbs]; simp)
            rw [hlink] at hl
            subst he
            simp at hl
            exact hl hp
          · exact ⟨e, by simp [he], rfl⟩
      · -- noundef
        intro e he
        simp only [List.mem_append, List.mem_cons] at he
        rcases he with (he | he | he) | he | he
        · exact G.noundef e (by rw [hbs2]; simp [he])
        · subst he; simp
        · exact G.noundef e (by rw [hbs2]; simp [he])
        · subst he; simp
        · exact G.noundef e (by rw [hbs2]; simp [he])
      · -- nodupL
        refine List.Nodup.cons ?_ G.nodupL
        intro hmemL
        have hl := G.live (bo, bh) (by rw [hbs]; simp)
        rw [hlink] at hl
        simp at hl
        exact hl hmemL


theorem my_malloc_good_split {s : AllocState} {L : List Nat}
    {bs pre post : List (Nat × Header)} {bo n needed : Nat} {bh : Header}
    {q : Option Nat}
    (G : GoodState s L bs)
    (hneed : (roundUp n + HEADER_SIZE) % U64 = needed)
    (hbs : bs = pre ++ (bo, bh) :: post)
    (hlink : bh.link = Link.next q)
    (hA : ∀ x ∈ freeBlocks pre, x.2.size < needed)
    (hlt : needed < bh.size)
    (h16n : 16 ≤ needed) (hmodn : needed % 16 = 0) :
    ∃ s2 bs2, my_malloc s n = some (s2, some (bo + HEADER_SIZE)) ∧
      GoodState s2 ((bo + HEADER_SIZE) :: L) bs2 ∧
      (bo, Header.mk needed Link.magic) ∈ bs2 ∧
      s2.heapSize = s.heapSize := by
  obtain ⟨hpre, h16, hmod, hpost, hbound, hprebnd, hpostbnd⟩ := split_ctx G hbs
  have hfreebh : isFree bh = true := by simp [isFree, hlink]
  have hfs : freeBlocks bs = freeBlocks pre ++ (bo, bh) :: freeBlocks post := by
    rw [hbs, freeBlocks_append, freeBlocks_cons_free hfreebh]
  have hlinks := G.links
  rw [chainNext, hfs, chainNextTo_append, Bool.and_eq_true] at hlinks
  obtain ⟨hlA, hlBB⟩ := hlinks
  obtain ⟨hlbo, hlB⟩ := (chainNextTo_cons _ _ _).mp hlBB
  have hq : headOffD (freeBlocks post) none = q := by
    rw [hlink] at hlbo
    exact (Link.next.inj hlbo).symm
  have hff : s.firstFreeBlock =
      headOffD (freeBlocks pre ++ (bo, bh) :: freeBlocks post) none := by
    rw [G.ff_eq, hfs, headOffO_eq_headOffD]
  have hmem : ∀ x ∈ freeBlocks pre ++ (bo, bh) :: freeBlocks post,
      lookupH s.mem x.1 = some x.2 := by
    intro x hx
    exact G.mem_ok x (by rw [← hfs] at hx; exact freeBlocks_sub hx)
  have hlen : 16 * bs.length ≤ s.heapSize := by
    have := chainSeg_length G.shape
    omega
  have hAlen : (freeBlocks pre).length < s.heapSize + 1 := by
    have h1 : (freeBlocks bs).length ≤ bs.length := List.length_filter_le _ _
    have h2 : (freeBlocks pre).length ≤ (freeBlocks bs).length := by
      rw [hfs]; simp
    omega
  have hfind : findFit s (s.heapSize + 1) Slot.head s.firstFreeBlock needed =
      some (some (slotAfter Slot.head (freeBlocks pre), bo)) := by
    rw [hff]
    exact findFit_found s needed (freeBlocks pre) (bo, bh) (freeBlocks post)
      Slot.head (s.heapSize + 1) hmem (by rw [← hfs]; exact G.links) hA
      (by simpa using hlt.le) hAlen
  have hlkbo : lookupH s.mem bo = some bh :=
    G.mem_ok (bo, bh) (by rw [hbs]; simp)
  have hbo_pre : ∀ e ∈ pre, e.1 < bo := by
    intro e he
    have := hprebnd e he
    omega
  have hbo_post : ∀ e ∈ post, bo < e.1 := by
    intro e he
    have := hpostbnd e he
    omega
  -- geometry of the new free remainder block
  have hnfs16 : 16 ≤ bh.size - needed := by omega
  have hnfsmod : (bh.size - needed) % 16 = 0 := by omega
  have hnf_not_bs : ∀ e ∈ bs, e.1 ≠ bo + needed := by
    intro e he
    rw [hbs, List.mem_append, List.mem_cons] at he
    rcases he with he | he | he
    · have := hbo_pre e he; omega
    · subst he; simp; omega
    · have := hbo_post e he
      have := hpostbnd e he
      omega
  -- lookups in the rewritten memory
  have hlkM_bo : lookupH (setMagic (setNext (setSize (setSize s.mem bo needed)
      (bo + needed) (bh.size - needed)) (bo + needed) q) bo) bo =
      some ⟨needed, Link.magic⟩ := by
    have h1 : lookupH (setNext (setSize (setSize s.mem bo needed)
        (bo + needed) (bh.size - needed)) (bo + needed) q) bo =
        some ⟨needed, bh.link⟩ := by
      rw [lookupH_setNext_ne _ _ _ _ (by omega : (bo : Nat) ≠ bo + needed),
        lookupH_setSize_ne _ _ _ _ (by omega : (bo : Nat) ≠ bo + needed)]
      exact lookupH_setSize_self _ _ _ _ hlkbo
    simpa using lookupH_setMagic_self _ _ _ h1
  have hlkM_nf : lookupH (setMagic (setNext (setSize (setSize s.mem bo needed)
      (bo + needed) (bh.size - needed)) (bo + needed) q) bo) (bo + needed) =
      some ⟨bh.size - needed, Link.next q⟩ := by
    obtain ⟨lk0, h0⟩ := lookupH_setSize_isSome (setSize s.mem bo needed)
      (bo + needed) (bh.size - needed)
    rw [lookupH_setMagic_ne _ _ _ (by omega : (bo + needed : Nat) ≠ bo)]
    simpa using lookupH_setNext_self _ _ _ _ h0
  have hlkM_other : ∀ x : Nat, x ≠ bo → x ≠ bo + needed →
      lookupH (setMagic (setNext (setSize (setSize s.mem bo needed)
        (bo + needed) (bh.size - needed)) (bo + needed) q) bo) x =
      lookupH s.mem x := by
    intro x h1 h2
    rw [lookupH_setMagic_ne _ _ _ h1, lookupH_setNext_ne _ _ _ _ h2,
      lookupH_setSize_ne _ _ _ _ h2, lookupH_setSize_ne _ _ _ _ h1]
  -- the allocated block is not previously live
  have hbo_notL : bo + HEADER_SIZE ∉ L := by
    intro hmemL
    have hl := G.live (bo, bh) (by rw [hbs]; simp)
    rw [hlink] at hl
    simp at hl
    exact hl hmemL
  -- the remainder block's payload is not live
  have hnf_notL : bo + needed + HEADER_SIZE ∉ L := by
    intro hmemL
    obtain ⟨e, he, hpe⟩ := G.live_sub _ hmemL
    have := hnf_not_bs e he
    unfold HEADER_SIZE at hpe
    omega
  rcases List.eq_nil_or_concat (freeBlocks pre) with hAnil | ⟨A1, alast, hAc0⟩
  · -- head slot
    refine ⟨⟨s.heapSize, setMagic (setNext (setSize (setSize s.mem bo needed)
        (bo + needed) (bh.size - needed)) (bo + needed) q) bo,
        some (bo + needed)⟩,
      pre ++ (bo, ⟨needed, Link.magic⟩) ::
        (bo + needed, ⟨bh.size - needed, Link.next q⟩) :: post,
      ?_, ?_, by simp, rfl⟩
    · simp only [my_malloc, hneed, hfind, hAnil, slotAfter]
      rw [allocate_block_split hlkbo hlink hlt h16n hbound]
      rfl
    · have hfs2 : freeBlocks (pre ++ (bo, ⟨needed, Link.magic⟩) ::
          (bo + needed, ⟨bh.size - needed, Link.next q⟩) :: post) =
          (bo + needed, ⟨bh.size - needed, Link.next q⟩) :: freeBlocks post := by
        rw [freeBlocks_append, freeBlocks_cons_notfree (by simp [isFree]),
          freeBlocks_cons_free (by simp [isFree]), hAnil]
        simp
      constructor
      · -- shape
        rw [chainSeg_append]
        have hend : endOff 0 pre = bo := endOff_eq_of_chainSeg hpre
        rw [hend]
        refine ⟨hpre, ?_⟩
        refine chainSeg_cons.mpr ⟨rfl, h16n, hmodn, ?_⟩
        refine chainSeg_cons.mpr ⟨rfl, hnfs16, hnfsmod, ?_⟩
        have : bo + needed + (bh.size - needed) = bo + bh.size := by omega
        rw [this]
        exact hpost
      · -- mem_ok
        intro e he
        rw [List.mem_append, List.mem_cons, List.mem_cons] at he
        rcases he with he | he | he | he
        · rw [hlkM_other _ (by have := hbo_pre e he; omega)
            (by have := hbo_pre e he; omega)]
          exact G.mem_ok e (by rw [hbs]; simp [he])
        · subst he
          exact hlkM_bo
        · subst he
          exact hlkM_nf
        · rw [hlkM_other _ (by have := hbo_post e he; omega)
            (by have := hpostbnd e he; omega)]
          exact G.mem_ok e (by rw [hbs]; simp [he])
      · -- ff_eq
        show some (bo + needed) = _
        rw [hfs2]
        rfl
      · -- links
        rw [chainNext, hfs2, chainNextTo_cons]
        exact ⟨by rw [hq], hlB⟩
      · -- noadj
        rw [hfs2, List.chain'_cons']
        have hnoadj := G.noadj
        rw [hfs, hAnil, List.nil_append] at hnoadj
        obtain ⟨hpair, hchB⟩ := List.chain'_cons'.mp hnoadj
        refine ⟨?_, hchB⟩
        intro y hy
        have := hpair y hy
        show bo + needed + (bh.size - needed) ≠ y.1
        simp only [notAdj] at this
        omega
      · -- live
        intro e he
        rw [List.mem_append, List.mem_cons, List.mem_cons] at he
        have hshift : ∀ x : Nat × Header, x ∈ bs → x.1 ≠ bo →
            (x.2.link = Link.magic ↔ x.1 + HEADER_SIZE ∈
              (bo + HEADER_SIZE) :: L) := by
          intro x hxbs hxne
          rw [G.live x hxbs]
          simp only [List.mem_cons]
          constructor
          · exact fun hp => Or.inr hp
          · rintro (hp | hp)
            · exfalso; unfold HEADER_SIZE at hp; omega
            · exact hp
        rcases he with he | he | he | he
        · exact hshift e (by rw [hbs]; simp [he])
            (by have := hbo_pre e he; omega)
        · subst he
          simp
        · subst he
          show Link.next q = Link.magic ↔
            bo + needed + HEADER_SIZE ∈ (bo + HEADER_SIZE) :: L
          constructor
          · intro hcon
            exact absurd hcon (by simp)
          · intro hp
            rcases List.mem_cons.mp hp with hp | hp
            · exfalso; omega
            · exact absurd hp hnf_notL
        · exact hshift e (by rw [hbs]; simp [he])
            (by have := hbo_post e he; omega)
      · -- live_sub
        intro p hp
        rw [List.mem_cons] at hp
        rcases hp with rfl | hp
        · exact ⟨(bo, ⟨needed, Link.magic⟩), by simp, rfl⟩
        · obtain ⟨e, he, rfl⟩ := G.live_sub p hp
          rw [hbs, List.mem_append, List.mem_cons] at he
          rcases he with he | he | he
          · exact ⟨e, by simp [he], rfl⟩
          · exfalso
            have hl := G.live (bo, bh) (by rw [hbs]; simp)
            rw [hlink] at hl
            subst he
            simp at hl
            exact hl hp
          · exact ⟨e, by simp [he], rfl⟩
      · -- noundef
        intro e he
        rw [List.mem_append, List.mem_cons, List.mem_cons] at he
        rcases he with he | he | he | he
        · exact G.noundef e (by rw [hbs]; simp [he])
        · subst he; simp
        · subst he; simp
        · exact G.noundef e (by rw [hbs]; simp [he])
      · -- nodupL
        exact List.Nodup.cons hbo_notL G.nodupL
  · -- mid slot
    have hAc : freeBlocks pre = A1 ++ [alast] := by
      rw [hAc0, List.concat_eq_append]
    obtain ⟨pre1, pre2, hpre_eq, hfb1, hfb2⟩ :=
      freeBlocks_split pre A1 [] alast hAc
    obtain ⟨ao, ah⟩ := alast
    have hsl : slotAfter Slot.head (freeBlocks pre) = Slot.nextOf ao := by
      rw [hAc]; exact slotAfter_concat _ _ _
    have hao_pre : (ao, ah) ∈ pre := by rw [hpre_eq]; simp
    have haobo : ao < bo := hbo_pre _ hao_pre
    have hlkao : lookupH s.mem ao = some ah :=
      G.mem_ok (ao, ah) (by rw [hbs]; simp [hao_pre])
    have hlAparts : chainNextTo A1 (some ao) = true ∧
        ah.link = Link.next (some bo) := by
      rw [hAc, chainNextTo_append, Bool.and_eq_true] at hlA
      refine ⟨?_, ?_⟩
      · simpa [headOffD] using hlA.1
      · simpa [headOffD] using ((chainNextTo_cons _ _ _).mp hlA.2).1
    have hpre2 : chainSeg (ao + ah.size) bo pre2 = true := by
      have := hpre
      rw [hpre_eq, chainSeg_append] at this
      obtain ⟨hp1, hp2⟩ := this
      obtain ⟨ho, -, -, hrest⟩ := chainSeg_cons.mp hp2
      simp only at ho
      rw [← ho] at hrest
      exact hrest
    have hpre2bnd : ∀ e ∈ pre2, ao < e.1 ∧ e.1 < bo := by
      intro e he
      have h1 := chainSeg_mem_bounds hpre2 e he
      have h2 := chainSeg_size_pos hpre2 e he
      have h3 := hprebnd (ao, ah) hao_pre
      simp only at h3
      omega
    have hpre1bnd : ∀ e ∈ pre1, e.1 < ao := by
      have := hpre
      rw [hpre_eq, chainSeg_append] at this
      obtain ⟨hp1, hp2⟩ := this
      obtain ⟨ho, h16a, -, -⟩ := chainSeg_cons.mp hp2
      simp only at ho
      intro e he
      have h1 := chainSeg_mem_bounds hp1 e he
      have h2 := chainSeg_size_pos hp1 e he
      omega
    have haone : (ao : Nat) ≠ bo := by omega
    have haonf : (ao : Nat) ≠ bo + needed := by omega
    -- lookups after the slot write
    have hlk2ao : lookupH (setNext (setMagic (setNext (setSize
        (setSize s.mem bo needed) (bo + needed) (bh.size - needed))
        (bo + needed) q) bo) ao (some (bo + needed))) ao =
        some ⟨ah.size, Link.next (some (bo + needed))⟩ := by
      have h0 : lookupH (setMagic (setNext (setSize (setSize s.mem bo needed)
          (bo + needed) (bh.size - needed)) (bo + needed) q) bo) ao =
          some ah := by
        rw [hlkM_other _ haone haonf]
        exact hlkao
      exact lookupH_setNext_self _ _ _ _ h0
    have hlk2bo : lookupH (setNext (setMagic (setNext (setSize
        (setSize s.mem bo needed) (bo + needed) (bh.size - needed))
        (bo + needed) q) bo) ao (some (bo + needed))) bo =
        some ⟨needed, Link.magic⟩ := by
      rw [lookupH_setNext_ne _ _ _ _ (Ne.symm haone)]
      exact hlkM_bo
    have hlk2nf : lookupH (setNext (setMagic (setNext (setSize
        (setSize s.mem bo needed) (bo + needed) (bh.size - needed))
        (bo + needed) q) bo) ao (some (bo + needed))) (bo + needed) =
        some ⟨bh.size - needed, Link.next q⟩ := by
      rw [lookupH_setNext_ne _ _ _ _ (Ne.symm haonf)]
      exact hlkM_nf
    have hlk2other : ∀ x : Nat, x ≠ ao → x ≠ bo → x ≠ bo + needed →
        lookupH (setNext (setMagic (setNext (setSize
          (setSize s.mem bo needed) (bo + needed) (bh.size - needed))
          (bo + needed) q) bo) ao (some (bo + needed))) x =
        lookupH s.mem x := by
      intro x h1 h2 h3
      rw [lookupH_setNext_ne _ _ _ _ h1]
      exact hlkM_other _ h2 h3
    have hbs2 : bs = (pre1 ++ (ao, ah) :: pre2) ++ (bo, bh) :: post := by
      rw [hbs, hpre_eq]
    refine ⟨⟨s.heapSize, setNext (setMagic (setNext (setSize
        (setSize s.mem bo needed) (bo + needed) (bh.size - needed))
        (bo + needed) q) bo) ao (some (bo + needed)), s.firstFreeBlock⟩,
      (pre1 ++ (ao, ⟨ah.size, Link.next (some (bo + needed))⟩) :: pre2) ++
        (bo, ⟨needed, Link.magic⟩) ::
        (bo + needed, ⟨bh.size - needed, Link.next q⟩) :: post,
      ?_, ?_, by simp, rfl⟩
    · simp only [my_malloc, hneed, hfind, hsl]
      rw [allocate_block_split hlkbo hlink hlt h16n hbound]
      rfl
    · have hfs2 : freeBlocks ((pre1 ++
          (ao, ⟨ah.size, Link.next (some (bo + needed))⟩) :: pre2) ++
          (bo, ⟨needed, Link.magic⟩) ::
          (bo + needed, ⟨bh.size - needed, Link.next q⟩) :: post) =
          A1 ++ (ao, ⟨ah.size, Link.next (some (bo + needed))⟩) ::
            (bo + needed, ⟨bh.size - needed, Link.next q⟩) ::
            freeBlocks post := by
        rw [freeBlocks_append, freeBlocks_append,
          freeBlocks_cons_free (by simp [isFree]), hfb1, hfb2,
          freeBlocks_cons_notfree (by simp [isFree]),
          freeBlocks_cons_free (by simp [isFree])]
        simp
      constructor
      · -- shape
        rw [chainSeg_append]
        have hpre'' : chainSeg 0 bo (pre1 ++ (ao, ah) :: pre2) = true := by
          rw [← hpre_eq]
          exact hpre
        have hpre' : chainSeg 0 bo
            (pre1 ++ (ao, ⟨ah.size, Link.next (some (bo + needed))⟩) ::
              pre2) = true := by
          refine chainSeg_of_forall₂ ?_ hpre''
          exact forall₂_append (forall₂_sameGeom_refl pre1)
            (List.Forall₂.cons ⟨rfl, rfl⟩ (forall₂_sameGeom_refl pre2))
        have hend : endOff 0 (pre1 ++
            (ao, ⟨ah.size, Link.next (some (bo + needed))⟩) :: pre2) = bo :=
          endOff_eq_of_chainSeg hpre'
        rw [hend]
        refine ⟨hpre', ?_⟩
        refine chainSeg_cons.mpr ⟨rfl, h16n, hmodn, ?_⟩
        refine chainSeg_cons.mpr ⟨rfl, hnfs16, hnfsmod, ?_⟩
        have : bo + needed + (bh.size - needed) = bo + bh.size := by omega
        rw [this]
        exact hpost
      · -- mem_ok
        intro e he
        simp only [List.mem_append, List.mem_cons] at he
        rcases he with (he | he | he) | he | he | he
        · have h1 := hpre1bnd e he
          rw [hlk2other _ (by omega) (by omega) (by omega)]
          exact G.mem_ok e (by rw [hbs2]; simp [he])
        · subst he
          exact hlk2ao
        · have h1 := hpre2bnd e he
          rw [hlk2other _ (by omega) (by omega) (by omega)]
          exact G.mem_ok e (by rw [hbs2]; simp [he])
        · subst he
          exact hlk2bo
        · subst he
          exact hlk2nf
        · have h1 := hbo_post e he
          have h2 := hpostbnd e he
          rw [hlk2other _ (by omega) (by omega) (by omega)]
          exact G.mem_ok e (by rw [hbs2]; simp [he])
      · -- ff_eq
        show s.firstFreeBlock = _
        rw [hfs2, hff, hAc, headOffO_eq_headOffD]
        rw [headOffD_append, headOffD_append, headOffD_append]
        rfl
      · -- links
        rw [chainNext, hfs2, chainNextTo_append, Bool.and_eq_true]
        refine ⟨by simpa [headOffD] using hlAparts.1, ?_⟩
        rw [chainNextTo_cons]
        refine ⟨rfl, ?_⟩
        rw [chainNextTo_cons]
        exact ⟨by rw [hq], hlB⟩
      · -- noadj
        have hnoadj := G.noadj
        rw [hfs, hAc] at hnoadj
        have hre : (A1 ++ [(ao, ah)]) ++ (bo, bh) :: freeBlocks post =
            A1 ++ (ao, ah) :: (bo, bh) :: freeBlocks post := by simp
        rw [hre, List.chain'_append] at hnoadj
        obtain ⟨hc1, hc2, hc3⟩ := hnoadj
        rw [hfs2, List.chain'_append]
        refine ⟨hc1, ?_, ?_⟩
        · rw [List.chain'_cons']
          obtain ⟨hpair_ao, hc2t⟩ := List.chain'_cons'.mp hc2
          obtain ⟨hpair_bo, hcB⟩ := List.chain'_cons'.mp hc2t
          refine ⟨?_, ?_⟩
          · intro y hy
            simp only [List.head?_cons, Option.mem_some_iff] at hy
            subst hy
            show ao + ah.size ≠ bo + needed
            have h3 := hprebnd (ao, ah) hao_pre
            simp only at h3
            omega
          · rw [List.chain'_cons']
            refine ⟨?_, hcB⟩
            intro y hy
            have hyB := List.mem_of_mem_head? hy
            have hypost := hpostbnd y (freeBlocks_sub hyB)
            have := hpair_bo y hy
            show bo + needed + (bh.size - needed) ≠ y.1
            simp only [notAdj] at this
            omega
        · intro x hx y hy
          simp only [List.head?_cons, Option.mem_some_iff] at hy
          subst hy
          have := hc3 x hx (ao, ah) (by simp [List.head?])
          exact this
      · -- live
        intro e he
        simp only [List.mem_append, List.mem_cons] at he
        have hshift : ∀ x : Nat × Header, x ∈ bs → x.1 ≠ bo →
            (x.2.link = Link.magic ↔ x.1 + HEADER_SIZE ∈
              (bo + HEADER_SIZE) :: L) := by
          intro x hxbs hxne
          rw [G.live x hxbs]
          simp only [List.mem_cons]
          constructor
          · exact fun hp => Or.inr hp
          · rintro (hp | hp)
            · exfalso; unfold HEADER_SIZE at hp; omega
            · exact hp
        rcases he with (he | he | he) | he | he | he
        · exact hshift e (by rw [hbs2]; simp [he])
            (by have := hpre1bnd e he; omega)
        · subst he
          have h0 := G.live (ao, ah) (by rw [hbs2]; simp)
          rw [hlAparts.2] at h0
          simp only at h0
          have hnotin : ao + HEADER_SIZE ∉ L := fun hin =>
            absurd (h0.mpr hin) (by simp)
          show Link.next (some (bo + needed)) = Link.magic ↔
            ao + HEADER_SIZE ∈ (bo + HEADER_SIZE) :: L
          constructor
          · intro hcon
            exact absurd hcon (by simp)
          · intro hp
            rcases List.mem_cons.mp hp with hp | hp
            · exact absurd (by omega : (ao : Nat) = bo) haone
            · exact absurd hp hnotin
        · exact hshift e (by rw [hbs2]; simp [he])
            (by have := hpre2bnd e he; omega)
        · subst he
          simp
        · subst he
          show Link.next q = Link.magic ↔
            bo + needed + HEADER_SIZE ∈ (bo + HEADER_SIZE) :: L
          constructor
          · intro hcon
            exact absurd hcon (by simp)
          · intro hp
            rcases List.mem_cons.mp hp with hp | hp
            · exfalso; omega
            · exact absurd hp hnf_notL
        · exact hshift e (by rw [hbs2]; simp [he])
            (by have := hbo_post e he; omega)
      · -- live_sub
        intro p hp
        rw [List.mem_cons] at hp
        rcases hp with rfl | hp
        · exact ⟨(bo, ⟨needed, Link.magic⟩), by simp, rfl⟩
        · obtain ⟨e, he, rfl⟩ := G.live_sub p hp
          rw [hbs2] at he
          simp only [List.mem_append, List.mem_cons] at he
          rcases he with (he | he | he) | he | he
          · exact ⟨e, by simp [he], rfl⟩
          · subst he
            exact ⟨(ao, ⟨ah.size, Link.next (some (bo + needed))⟩),
              by simp, rfl⟩
          · exact ⟨e, by simp [he], rfl⟩
          · exfalso
            have hl := G.live (bo, bh) (by rw [hbs]; simp)
            rw [hlink] at hl
            subst he
            simp at hl
            exact hl hp
          · exact ⟨e, by simp [he], rfl⟩
      · -- noundef
        intro e he
        simp only [List.mem_append, List.mem_cons] at he
        rcases he with (he | he | he) | he | he | he
        · exact G.noundef e (by rw [hbs2]; simp [he])
        · subst he; simp
        · exact G.noundef e (by rw [hbs2]; simp [he])
        · subst he; simp
        · subst he; simp
        · exact G.noundef e (by rw [hbs2]; simp [he])
      · -- nodupL
        exact List.Nodup.cons hbo_notL G.nodupL

theorem isFree_link {h : Header} (hf : isFree h = true) :
    ∃ q, h.link = Link.next q := by
  unfold isFree at hf
  cases hl : h.link with
  | next q => exact ⟨q, rfl⟩
  | magic => rw [hl] at hf; simp at hf
  | undef => rw [hl] at hf; simp at hf

/-- Needed sizes computed by `my_malloc` are multiples of 16. -/
theorem needed_mod16 (n : Nat) : (roundUp n + HEADER_SIZE) % U64 % 16 = 0 := by
  have h1 := roundUp_mod16 n
  have h2 : (16 : Nat) ∣ roundUp n + HEADER_SIZE := by
    unfold HEADER_SIZE
    omega
  have h3 : (16 : Nat) ∣ U64 := by unfold U64; norm_num
  have := (Nat.dvd_mod_iff h3).mpr h2
  omega

/-- When no free block is large enough, `my_malloc` returns `NULL` and the
state unchanged. -/
theorem my_malloc_none {s : AllocState} {L bs : List _} {n : Nat}
    (G : GoodState s L bs)
    (hA : ∀ x ∈ freeBlocks bs, x.2.size < (roundUp n + HEADER_SIZE) % U64) :
    my_malloc s n = some (s, none) := by
  have hmem : ∀ x ∈ freeBlocks bs, lookupH s.mem x.1 = some x.2 :=
    fun x hx => G.mem_ok x (freeBlocks_sub hx)
  have hlen : 16 * bs.length ≤ s.heapSize := by
    have := chainSeg_length G.shape
    omega
  have hflen : (freeBlocks bs).length < s.heapSize + 1 := by
    have := List.length_filter_le (fun e => isFree e.2) bs
    unfold freeBlocks
    omega
  have hfind := findFit_none s ((roundUp n + HEADER_SIZE) % U64)
    (freeBlocks bs) Slot.head (s.heapSize + 1) hmem G.links hA hflen
  simp only [my_malloc]
  rw [G.ff_eq, headOffO_eq_headOffD, hfind]

/-- When the wrapped size computation yields 0 and the free list is
non-empty, `my_malloc` crashes: it resizes the first free block to 0 and
`_getNextBlockBySize` wraps out of the arena. -/
theorem my_malloc_zero {s : AllocState} {L bs : List _} {n : Nat}
    (G : GoodState s L bs)
    (hneed0 : (roundUp n + HEADER_SIZE) % U64 = 0)
    (hne : freeBlocks bs ≠ []) : my_malloc s n = none := by
  obtain ⟨e, fs', hfs⟩ := List.exists_cons_of_ne_nil hne
  have hmem : ∀ x ∈ freeBlocks bs, lookupH s.mem x.1 = some x.2 :=
    fun x hx => G.mem_ok x (freeBlocks_sub hx)
  have hlen : 16 * bs.length ≤ s.heapSize := by
    have := chainSeg_length G.shape
    omega
  have hflen : (0 : Nat) < s.heapSize + 1 := by omega
  have hfind := findFit_found s ((roundUp n + HEADER_SIZE) % U64) [] e fs'
    Slot.head (s.heapSize + 1) (by rw [← hfs]; exact hmem)
    (by rw [← hfs]; exact G.links) (by simp) (by omega) (by simpa using hflen)
  have hlke : lookupH s.mem e.1 = some e.2 := hmem e (by rw [hfs]; simp)
  have h16e : 16 ≤ e.2.size := by
    have := chainSeg_size_pos G.shape e (freeBlocks_sub (by rw [hfs]; simp))
    omega
  have halloc : allocate_block s (slotAfter Slot.head []) e.1 0 = none := by
    have hlk1 : lookupH (setSize s.mem e.1 0) e.1 = some ⟨0, e.2.link⟩ :=
      lookupH_setSize_self _ _ _ _ hlke
    have hnx : getNextBlockBySize { s with mem := setSize s.mem e.1 0 }
        e.1 = none := by
      unfold getNextBlockBySize
      simp [hlk1, HEADER_SIZE]
    unfold allocate_block
    rw [hlke]
    simp only [if_neg (show ¬ (e.2.size < 0) by omega),
      if_neg (show ¬ (e.2.size = 0) by omega), hnx]
  simp only [List.nil_append] at hfind
  simp only [my_malloc]
  rw [G.ff_eq, headOffO_eq_headOffD, hfs, hfind]
  simp only [hneed0, halloc]

/-- Any successful `my_malloc` step preserves the invariant (with the
returned payload pointer added to the outstanding set), and never changes
the arena capacity. -/
theorem my_malloc_preserves {s : AllocState} {L : List Nat}
    {bs : List (Nat × Header)} {n : Nat} {s2 : AllocState} {r : Option Nat}
    (G : GoodState s L bs) (hm : my_malloc s n = some (s2, r)) :
    (∃ bs2, GoodState s2 (pushPtr r L) bs2) ∧ s2.heapSize = s.heapSize := by
  by_cases hfit : ∃ e ∈ freeBlocks bs,
      (roundUp n + HEADER_SIZE) % U64 ≤ e.2.size
  · obtain ⟨A, e, B, hsp, hAlt, hfite, -⟩ := exists_first_fit _ _ hfit
    obtain ⟨pre, post, hbs, hfbpre, hfbpost⟩ := freeBlocks_split bs A B e hsp
    obtain ⟨eo, eh⟩ := e
    have hefree : isFree eh = true :=
      isFree_of_mem_freeBlocks (e := (eo, eh)) (l := bs) (by rw [hsp]; simp)
    obtain ⟨q, hlink⟩ := isFree_link hefree
    have hApre : ∀ x ∈ freeBlocks pre,
        x.2.size < (roundUp n + HEADER_SIZE) % U64 := by
      rw [hfbpre]; exact hAlt
    by_cases h0 : (roundUp n + HEADER_SIZE) % U64 = 0
    · have hz := my_malloc_zero G h0 (by rw [hsp]; simp)
      rw [hz] at hm
      cases hm
    · have h16n : 16 ≤ (roundUp n + HEADER_SIZE) % U64 := by
        have := needed_mod16 n
        omega
      rcases eq_or_lt_of_le hfite with heq | hlt
      · obtain ⟨s2', bs2, hm', hG, -, hhs⟩ :=
          my_malloc_good_exact G rfl hbs hlink hApre heq.symm
        rw [hm'] at hm
        simp only [Option.some.injEq, Prod.mk.injEq] at hm
        obtain ⟨rfl, rfl⟩ := hm
        exact ⟨⟨bs2, hG⟩, hhs⟩
      · obtain ⟨s2', bs2, hm', hG, -, hhs⟩ :=
          my_malloc_good_split G rfl hbs hlink hApre hlt h16n
            (needed_mod16 n)
        rw [hm'] at hm
        simp only [Option.some.injEq, Prod.mk.injEq] at hm
        obtain ⟨rfl, rfl⟩ := hm
        exact ⟨⟨bs2, hG⟩, hhs⟩
  · push_neg at hfit
    have hz := my_malloc_none G hfit
    rw [hz] at hm
    simp only [Option.some.injEq, Prod.mk.injEq] at hm
    obtain ⟨rfl, rfl⟩ := hm
    exact ⟨⟨bs, G⟩, rfl⟩

/-! ## `merge_blocks` computation lemmas -/

theorem merge_blocks_null {s : AllocState} {b1 : Nat} {h1 : Header}
    (hlk : lookupH s.mem b1 = some h1) : merge_blocks s b1 none = some s := by
  unfold merge_blocks
  rw [hlk]

theorem merge_blocks_noop {s : AllocState} {b1 o2 : Nat} {h1 : Header}
    (hlk : lookupH s.mem b1 = some h1) (hne : b1 + h1.size ≠ o2) :
    merge_blocks s b1 (some o2) = some s := by
  unfold merge_blocks
  rw [hlk]
  simp [hne]

theorem merge_blocks_fire {s : AllocState} {b1 o2 s1 s2k : Nat}
    {q2 : Option Nat}
    (hlk1 : lookupH s.mem b1 = some ⟨s1, Link.next (some o2)⟩)
    (hadj : b1 + s1 = o2)
    (hlk2 : lookupH s.mem o2 = some ⟨s2k, Link.next q2⟩) :
    merge_blocks s b1 (some o2) =
      some { s with
        mem := writeH s.mem b1 ⟨(s1 + s2k) % U64, Link.next q2⟩ } := by
  unfold merge_blocks
  rw [hlk1]
  simp only [if_neg (show ¬ (b1 + Header.size ⟨s1, Link.next (some o2)⟩ ≠ o2)
    by simp [hadj])]
  rw [hlk2]
  simp

theorem readNext_eq {m : Mem} {o : Nat} {h : Header} {q : Option Nat}
    (hlk : lookupH m o = some h) (hl : h.link = Link.next q) :
    readNext m o = some q := by
  obtain ⟨hs0, hl0⟩ := h
  simp only at hl
  subst hl
  unfold readNext
  rw [hlk]

/-! ## The `my_free` scan loop -/


theorem freeScan_spec (s : AllocState) (blk : Nat) (t : Option Nat)
    (ht : ∀ b0, t = some b0 → ¬ b0 < blk) :
    ∀ (A : List (Nat × Header)) (la : Nat × Header) (fuel : Nat),
      (∀ x ∈ A ++ [la], lookupH s.mem x.1 = some x.2) →
      chainNextTo (A ++ [la]) t = true →
      (∀ x ∈ A ++ [la], x.1 < blk) →
      A.length + 1 < fuel →
      freeScan s fuel
        (match headOffD (A ++ [la]) none with | some f => f | none => 0)
        blk = some la.1 := by
  intro A
  induction A with
  | nil =>
    intro la fuel hlk hch hlt hfuel
    cases fuel with
    | zero => omega
    | succ fuel =>
      rw [List.nil_append] at hch
      obtain ⟨hlink, -⟩ := (chainNextTo_cons _ _ _).mp hch
      have hrn : readNext s.mem la.1 = some t :=
        readNext_eq (hlk la (by simp)) (by simpa [headOffD] using hlink)
      show freeScan s (fuel + 1) la.1 blk = some la.1
      unfold freeScan
      rw [hrn]
      cases t with
      | none => rfl
      | some b0 =>
        have := ht b0 rfl
        simp [this]
  | cons a A ih =>
    intro la fuel hlk hch hlt hfuel
    cases fuel with
    | zero => omega
    | succ fuel =>
      rw [List.cons_append] at hch
      obtain ⟨hlink, hch2⟩ := (chainNextTo_cons _ _ _).mp hch
      have hhd : headOffD (A ++ [la]) t = headOffD (A ++ [la]) none := by
        cases A <;> simp [headOffD]
      rw [hhd] at hlink
      have hrn : readNext s.mem a.1 = some (headOffD (A ++ [la]) none) :=
        readNext_eq (hlk a (by simp)) hlink
      show freeScan s (fuel + 1) a.1 blk = some la.1
      unfold freeScan
      rw [hrn]
      cases hh : headOffD (A ++ [la]) none with
      | none =>
        exfalso
        cases A <;> simp [headOffD] at hh
      | some f =>
        have hflt : f < blk := by
          cases A with
          | nil =>
            simp [headOffD] at hh
            have := hlt la (by simp)
            omega
          | cons a2 A2 =>
            simp [headOffD] at hh
            have := hlt a2 (by simp)
            omega
        simp only [if_pos hflt]
        have hres := ih la fuel (fun x hx => hlk x (by simp [hx])) hch2
          (fun x hx => hlt x (by simp [hx])) (by simpa using hfuel)
        rw [hh] at hres
        simpa using hres

/-! ## `my_free`: preservation of the invariant -/

theorem my_free_good_head {s : AllocState} {L : List Nat}
    {bs pre post : List (Nat × Header)} {blk : Nat} {bh : Header}
    (G : GoodState s L bs) (hU : s.heapSize < U64)
    (hbs : bs = pre ++ (blk, bh) :: post)
    (hmag : bh.link = Link.magic)
    (hpL : blk + HEADER_SIZE ∈ L)
    (hAnil : freeBlocks pre = [])
    (hBne : freeBlocks post ≠ []) :
    ∃ s2 bs2, my_free s (some (blk + HEADER_SIZE)) = some s2 ∧
      GoodState s2 (L.erase (blk + HEADER_SIZE)) bs2 ∧
      s2.heapSize = s.heapSize := by
  obtain ⟨hpre, h16, hmod, hpost, hbound, hprebnd, hpostbnd⟩ := split_ctx G hbs
  have hfs : freeBlocks bs = freeBlocks post := by
    rw [hbs, freeBlocks_append, freeBlocks_cons_notfree (by simp [isFree, hmag]),
      hAnil, List.nil_append]
  obtain ⟨f0, B', hB⟩ := List.exists_cons_of_ne_nil hBne
  obtain ⟨fo, fh⟩ := f0
  have hf0free : isFree fh = true :=
    isFree_of_mem_freeBlocks (e := (fo, fh)) (l := post) (by rw [hB]; simp)
  have hf0post : (fo, fh) ∈ post := freeBlocks_sub (by rw [hB]; simp)
  have hf0bnd := hpostbnd (fo, fh) hf0post
  simp only at hf0bnd
  have hblklt : blk < fo := by omega
  have hff : s.firstFreeBlock = some fo := by
    rw [G.ff_eq, hfs, hB]
    rfl
  have hlkblk : lookupH s.mem blk = some bh :=
    G.mem_ok (blk, bh) (by rw [hbs]; simp)
  have hlinks := G.links
  rw [chainNext, hfs, hB] at hlinks
  obtain ⟨hf0link, hlB'⟩ := (chainNextTo_cons _ _ _).mp hlinks
  simp only at hf0link
  have hnoadjB := G.noadj
  rw [hfs, hB] at hnoadjB
  have hbo_pre : ∀ e ∈ pre, e.1 < blk := by
    intro e he
    have := hprebnd e he
    omega
  have hbo_post : ∀ e ∈ post, blk < e.1 := by
    intro e he
    have := hpostbnd e he
    omega
  -- the state after the two head-insert writes
  have hlk1 : lookupH (setNext s.mem blk (some fo)) blk =
      some ⟨bh.size, Link.next (some fo)⟩ :=
    lookupH_setNext_self _ _ _ _ hlkblk
  have hrn1 : readNext (setNext s.mem blk (some fo)) blk = some (some fo) :=
    readNext_eq hlk1 rfl
  have hstep : my_free s (some (blk + HEADER_SIZE)) =
      merge_blocks ⟨s.heapSize, setNext s.mem blk (some fo), some blk⟩
        blk (some fo) := by
    simp only [my_free, Nat.add_sub_cancel, hff,
      if_neg (show ¬ blk + HEADER_SIZE < HEADER_SIZE by
        unfold HEADER_SIZE; omega),
      if_pos hblklt, hrn1]
  -- common facts for the live bookkeeping
  have hpne : blk + HEADER_SIZE ∉ L.erase (blk + HEADER_SIZE) :=
    G.nodupL.not_mem_erase
  have hshift : ∀ x : Nat × Header, x ∈ bs → x.1 ≠ blk →
      (x.2.link = Link.magic ↔
        x.1 + HEADER_SIZE ∈ L.erase (blk + HEADER_SIZE)) := by
    intro x hxbs hxne
    rw [G.live x hxbs]
    rw [List.mem_erase_of_ne (by unfold HEADER_SIZE; omega)]
  have hsubL : ∀ p2 ∈ L.erase (blk + HEADER_SIZE),
      p2 ∈ L ∧ p2 ≠ blk + HEADER_SIZE := by
    intro p2 hp2
    have := (G.nodupL.mem_erase_iff.mp hp2)
    exact ⟨this.2, this.1⟩
  by_cases hadj : blk + bh.size = fo
  · -- the freed block and its free-list successor are physical neighbors
    have hpostne : post ≠ [] := List.ne_nil_of_mem hf0post
    obtain ⟨ph, post', hpe⟩ := List.exists_cons_of_ne_nil hpostne
    rw [hpe] at hpost
    obtain ⟨hph1, hph16, hphmod, hpost'0⟩ := chainSeg_cons.mp hpost
    have hphf0 : ph = (fo, fh) := by
      rw [hpe] at hf0post
      rcases List.mem_cons.mp hf0post with h | h
      · exact h.symm
      · exfalso
        have hb := chainSeg_mem_bounds hpost'0 (fo, fh) h
        simp only at hb
        omega
    subst hphf0
    simp only at hph1 hph16 hphmod
    have hpost' : chainSeg (blk + bh.size + fh.size) s.heapSize post' = true :=
      by simpa using hpost'0
    have hB'eq : freeBlocks post' = B' := by
      rw [hpe, freeBlocks_cons_free hf0free] at hB
      exact (List.cons.inj hB).2
    have hlk2 : lookupH (setNext s.mem blk (some fo)) fo =
        some ⟨fh.size, Link.next (headOffD B' none)⟩ := by
      rw [lookupH_setNext_ne _ _ _ _ (by omega : (fo : Nat) ≠ blk)]
      have h0 : lookupH s.mem fo = some fh :=
        G.mem_ok (fo, fh) (by rw [hbs]; simp [hf0post])
      rw [h0]
      congr 1
      calc fh = ⟨fh.size, fh.link⟩ := rfl
        _ = ⟨fh.size, Link.next (headOffD B' none)⟩ := by rw [hf0link]
    have hsum : (bh.size + fh.size) % U64 = bh.size + fh.size := by
      apply Nat.mod_eq_of_lt
      have := chainSeg_le hpost'
      omega
    have hfire := merge_blocks_fire (s := ⟨s.heapSize,
      setNext s.mem blk (some fo), some blk⟩) hlk1 hadj hlk2
    refine ⟨⟨s.heapSize, writeH (setNext s.mem blk (some fo)) blk
        ⟨(bh.size + fh.size) % U64, Link.next (headOffD B' none)⟩, some blk⟩,
      pre ++ (blk, ⟨bh.size + fh.size, Link.next (headOffD B' none)⟩) :: post',
      by rw [hstep, hfire], ?_, rfl⟩
    have hlkF_blk : lookupH (writeH (setNext s.mem blk (some fo)) blk
        ⟨(bh.size + fh.size) % U64, Link.next (headOffD B' none)⟩) blk =
        some ⟨bh.size + fh.size, Link.next (headOffD B' none)⟩ := by
      rw [lookupH_writeH_self, hsum]
    have hlkF_other : ∀ x : Nat, x ≠ blk →
        lookupH (writeH (setNext s.mem blk (some fo)) blk
          ⟨(bh.size + fh.size) % U64, Link.next (headOffD B' none)⟩) x =
        lookupH s.mem x := by
      intro x hx
      rw [lookupH_writeH_ne _ _ _ _ hx, lookupH_setNext_ne _ _ _ _ hx]
    have hpost'bnd : ∀ e ∈ post', blk + bh.size + fh.size ≤ e.1 :=
      fun e he => (chainSeg_mem_bounds hpost' e he).1
    have hfs2 : freeBlocks (pre ++ (blk, ⟨bh.size + fh.size,
        Link.next (headOffD B' none)⟩) :: post') =
        (blk, ⟨bh.size + fh.size, Link.next (headOffD B' none)⟩) :: B' := by
      rw [freeBlocks_append, freeBlocks_cons_free (by simp [isFree]), hAnil,
        hB'eq, List.nil_append]
    constructor
    · -- shape
      rw [chainSeg_append, endOff_eq_of_chainSeg hpre]
      refine ⟨hpre, ?_⟩
      refine chainSeg_cons.mpr ⟨rfl, by simp; omega, by simp; omega, ?_⟩
      show chainSeg (blk + (bh.size + fh.size)) s.heapSize post' = true
      rw [← Nat.add_assoc]
      exact hpost'
    · -- mem_ok
      intro e he
      rw [List.mem_append, List.mem_cons] at he
      rcases he with he | he | he
      · rw [hlkF_other _ (by have := hbo_pre e he; omega)]
        exact G.mem_ok e (by rw [hbs]; simp [he])
      · subst he
        exact hlkF_blk
      · rw [hlkF_other _ (by have := hpost'bnd e he; omega)]
        exact G.mem_ok e (by rw [hbs, hpe]; simp [he])
    · -- ff_eq
      show some blk = _
      rw [hfs2]
      rfl
    · -- links
      rw [chainNext, hfs2, chainNextTo_cons]
      refine ⟨?_, hlB'⟩
      cases B' <;> rfl
    · -- noadj
      rw [hfs2, List.chain'_cons']
      obtain ⟨hpair, hchB'⟩ := List.chain'_cons'.mp hnoadjB
      refine ⟨?_, hchB'⟩
      intro y hy
      have := hpair y hy
      show blk + (bh.size + fh.size) ≠ y.1
      simp only [notAdj] at this
      omega
    · -- live
      intro e he
      rw [List.mem_append, List.mem_cons] at he
      rcases he with he | he | he
      · exact hshift e (by rw [hbs]; simp [he])
          (by have := hbo_pre e he; omega)
      · subst he
        show Link.next (headOffD B' none) = Link.magic ↔ _
        simp only [List.mem_cons]
        constructor
        · intro hcon
          exact absurd hcon (by simp)
        · intro hp
          exact absurd hp hpne
      · exact hshift e (by rw [hbs, hpe]; simp [he])
          (by have := hpost'bnd e he; omega)
    · -- live_sub
      intro p2 hp2
      obtain ⟨hp2L, hp2ne⟩ := hsubL p2 hp2
      obtain ⟨e, he, rfl⟩ := G.live_sub p2 hp2L
      rw [hbs, hpe] at he
      rw [List.mem_append, List.mem_cons, List.mem_cons] at he
      rcases he with he | he | he | he
      · exact ⟨e, by simp [he], rfl⟩
      · exfalso
        subst he
        simp at hp2ne
      · exfalso
        subst he
        have hl := G.live (fo, fh) (by rw [hbs, hpe]; simp)
        rw [hf0link] at hl
        simp at hl
        exact hl hp2L
      · exact ⟨e, by simp [he], rfl⟩
    · -- noundef
      intro e he
      rw [List.mem_append, List.mem_cons] at he
      rcases he with he | he | he
      · exact G.noundef e (by rw [hbs]; simp [he])
      · subst he; simp
      · exact G.noundef e (by rw [hbs, hpe]; simp [he])
    · -- nodupL
      exact G.nodupL.erase _
  · -- not neighbors: plain head insert
    have hnoop := merge_blocks_noop (s := ⟨s.heapSize,
      setNext s.mem blk (some fo), some blk⟩) hlk1 (by simpa using hadj)
    refine ⟨⟨s.heapSize, setNext s.mem blk (some fo), some blk⟩,
      pre ++ (blk, ⟨bh.size, Link.next (some fo)⟩) :: post,
      by rw [hstep, hnoop], ?_, rfl⟩
    have hlkF_other : ∀ x : Nat, x ≠ blk →
        lookupH (setNext s.mem blk (some fo)) x = lookupH s.mem x :=
      fun x hx => lookupH_setNext_ne _ _ _ _ hx
    have hfs2 : freeBlocks (pre ++ (blk, ⟨bh.size, Link.next (some fo)⟩) ::
        post) = (blk, ⟨bh.size, Link.next (some fo)⟩) :: freeBlocks post := by
      rw [freeBlocks_append, freeBlocks_cons_free (by simp [isFree]), hAnil,
        List.nil_append]
    constructor
    · -- shape
      refine chainSeg_of_forall₂ ?_ G.shape
      rw [hbs]
      exact forall₂_append (forall₂_sameGeom_refl pre)
        (List.Forall₂.cons ⟨rfl, rfl⟩ (forall₂_sameGeom_refl post))
    · -- mem_ok
      intro e he
      rw [List.mem_append, List.mem_cons] at he
      rcases he with he | he | he
      · rw [hlkF_other _ (by have := hbo_pre e he; omega)]
        exact G.mem_ok e (by rw [hbs]; simp [he])
      · subst he
        exact hlk1
      · rw [hlkF_other _ (by have := hbo_post e he; omega)]
        exact G.mem_ok e (by rw [hbs]; simp [he])
    · -- ff_eq
      show some blk = _
      rw [hfs2]
      rfl
    · -- links
      rw [chainNext, hfs2, chainNextTo_cons]
      refine ⟨?_, by rw [← chainNext, ← hfs]; exact G.links⟩
      rw [hB]
      rfl
    · -- noadj
      rw [hfs2, List.chain'_cons']
      refine ⟨?_, by rw [← hfs]; exact G.noadj⟩
      intro y hy
      rw [hB] at hy
      simp only [List.head?_cons, Option.mem_some_iff] at hy
      subst hy
      show blk + bh.size ≠ fo
      exact hadj
    · -- live
      intro e he
      rw [List.mem_append, List.mem_cons] at he
      rcases he with he | he | he
      · exact hshift e (by rw [hbs]; simp [he])
          (by have := hbo_pre e he; omega)
      · subst he
        show Link.next (some fo) = Link.magic ↔ _
        simp only [List.mem_cons]
        constructor
        · intro hcon
          exact absurd hcon (by simp)
        · intro hp
          exact absurd hp hpne
      · exact hshift e (by rw [hbs]; simp [he])
          (by have := hbo_post e he; omega)
    · -- live_sub
      intro p2 hp2
      obtain ⟨hp2L, hp2ne⟩ := hsubL p2 hp2
      obtain ⟨e, he, rfl⟩ := G.live_sub p2 hp2L
      rw [hbs] at he
      rw [List.mem_append, List.mem_cons] at he
      rcases he with he | he | he
      · exact ⟨e, by simp [he], rfl⟩
      · exfalso
        subst he
        simp at hp2ne
      · exact ⟨e, by simp [he], rfl⟩
    · -- noundef
      intro e he
      rw [List.mem_append, List.mem_cons] at he
      rcases he with he | he | he
      · exact G.noundef e (by rw [hbs]; simp [he])
      · subst he; simp
      · exact G.noundef e (by rw [hbs]; simp [he])
    · -- nodupL
      exact G.nodupL.erase _

theorem my_free_good_mid {s : AllocState} {L : List Nat}
    {bs pre post : List (Nat × Header)} {blk : Nat} {bh : Header}
    (G : GoodState s L bs) (hU : s.heapSize < U64)
    (hbs : bs = pre ++ (blk, bh) :: post)
    (hmag : bh.link = Link.magic)
    (hpL : blk + HEADER_SIZE ∈ L)
    (hAne : freeBlocks pre ≠ []) :
    ∃ s2 bs2, my_free s (some (blk + HEADER_SIZE)) = some s2 ∧
      GoodState s2 (L.erase (blk + HEADER_SIZE)) bs2 ∧
      s2.heapSize = s.heapSize := by
  obtain ⟨hpre, h16, hmod, hpost, hbound, hprebnd, hpostbnd⟩ := split_ctx G hbs
  have hfs : freeBlocks bs = freeBlocks pre ++ freeBlocks post := by
    rw [hbs, freeBlocks_append,
      freeBlocks_cons_notfree (by simp [isFree, hmag])]
  rcases List.eq_nil_or_concat (freeBlocks pre) with h | ⟨A1, fbe, hAc0⟩
  · exact absurd h hAne
  have hAc : freeBlocks pre = A1 ++ [fbe] := by
    rw [hAc0, List.concat_eq_append]
  obtain ⟨fb, fbh⟩ := fbe
  obtain ⟨pre1, pre2, hpre_eq, hfb1, hfb2⟩ :=
    freeBlocks_split pre A1 [] (fb, fbh) hAc
  have hfbfree : isFree fbh = true :=
    isFree_of_mem_freeBlocks (e := (fb, fbh)) (l := pre) (by rw [hAc]; simp)
  have hfb_pre : (fb, fbh) ∈ pre := by rw [hpre_eq]; simp
  have hfbblk : fb < blk := by
    have := hprebnd (fb, fbh) hfb_pre
    simp only at this
    omega
  have hlkblk : lookupH s.mem blk = some bh :=
    G.mem_ok (blk, bh) (by rw [hbs]; simp)
  have hlkfb : lookupH s.mem fb = some fbh :=
    G.mem_ok (fb, fbh) (by rw [hbs]; simp [hfb_pre])
  -- links decomposition
  have hlinks := G.links
  rw [chainNext, hfs, hAc, chainNextTo_append, Bool.and_eq_true] at hlinks
  obtain ⟨hlpre, hlB⟩ := hlinks
  rw [chainNextTo_append, Bool.and_eq_true] at hlpre
  obtain ⟨hlA1, hlfb⟩ := hlpre
  have hA1chain : chainNextTo A1 (some fb) = true := by
    simpa [headOffD] using hlA1
  have hfblink : fbh.link = Link.next (headOffD (freeBlocks post) none) := by
    have := ((chainNextTo_cons _ _ _).mp hlfb).1
    simpa [headOffD] using this
  -- chain decomposition of pre
  have hpre12 := hpre
  rw [hpre_eq, chainSeg_append] at hpre12
  obtain ⟨hpre1c, hpre2c0⟩ := hpre12
  obtain ⟨hfboff, -, hfbmod, hpre2c⟩ := chainSeg_cons.mp hpre2c0
  simp only at hfboff hfbmod
  rw [← hfboff] at hpre2c
  simp only at hpre2c
  have hfb16 : 16 ≤ fbh.size := by
    have := hprebnd (fb, fbh) hfb_pre
    simp only at this
    omega
  have hfbend : fb + fbh.size ≤ blk := chainSeg_le hpre2c
  have hpre1bnd : ∀ e ∈ pre1, e.1 < fb := by
    intro e he
    have h1 := chainSeg_mem_bounds hpre1c e he
    have h2 := chainSeg_size_pos hpre1c e he
    omega
  have hpre2bnd : ∀ e ∈ pre2, fb < e.1 ∧ e.1 < blk := by
    intro e he
    have h1 := chainSeg_mem_bounds hpre2c e he
    have h2 := chainSeg_size_pos hpre2c e he
    omega
  have hbo_post : ∀ e ∈ post, blk < e.1 := by
    intro e he
    have := hpostbnd e he
    omega
  have hApre_lt : ∀ x ∈ A1 ++ [(fb, fbh)], x.1 < blk := by
    intro x hx
    rw [← hAc] at hx
    have := hprebnd x (freeBlocks_sub hx)
    have := chainSeg_size_pos hpre x (freeBlocks_sub hx)
    omega
  have hq_gt : ∀ b0, headOffD (freeBlocks post) none = some b0 →
      blk + bh.size ≤ b0 := by
    intro b0 hb0
    cases hfp : freeBlocks post with
    | nil => rw [hfp] at hb0; simp [headOffD] at hb0
    | cons x xs =>
      rw [hfp] at hb0
      simp only [headOffD, Option.some.injEq] at hb0
      have hx : x ∈ post := freeBlocks_sub (by rw [hfp]; simp)
      have := hpostbnd x hx
      omega
  -- the scan lands on the last free block before `blk`
  have hscan : freeScan s (s.heapSize + 1)
      (match headOffD (A1 ++ [(fb, fbh)]) none with
        | some f => f | none => 0) blk = some fb := by
    have hlen : 16 * bs.length ≤ s.heapSize := by
      have := chainSeg_length G.shape
      omega
    have hlenA : A1.length + 1 < s.heapSize + 1 := by
      have h1 : (freeBlocks bs).length ≤ bs.length := List.length_filter_le _ _
      have h2 : (A1 ++ [(fb, fbh)]).length ≤ (freeBlocks bs).length := by
        rw [hfs, hAc]
        simp
      simp only [List.length_append, List.length_cons, List.length_nil] at h2
      omega
    have := freeScan_spec s blk (headOffD (freeBlocks post) none)
      (fun b0 hb0 => by have := hq_gt b0 hb0; omega)
      A1 (fb, fbh) (s.heapSize + 1)
      (fun x hx => G.mem_ok x (by
        rw [← hAc] at hx
        exact freeBlocks_sub (l := bs) (by rw [hfs]; simp [hx])))
      (by rw [chainNextTo_append, Bool.and_eq_true]; exact ⟨hlA1, hlfb⟩)
      hApre_lt hlenA
    exact this
  -- the head of the free list is below blk, so the else branch runs
  obtain ⟨f0, hf0⟩ : ∃ f0, headOffD (A1 ++ [(fb, fbh)]) none = some f0 := by
    cases A1 <;> exact ⟨_, rfl⟩
  have hf0lt : f0 < blk := by
    cases A1 with
    | nil =>
      simp [headOffD] at hf0
      omega
    | cons a A2 =>
      simp [headOffD] at hf0
      have := hApre_lt a (by simp)
      omega
  have hff : s.firstFreeBlock = some f0 := by
    rw [G.ff_eq, headOffO_eq_headOffD, hfs, hAc, headOffD_append,
      headOffD_append]
    rw [show headOffD A1 (headOffD [(fb, fbh)]
      (headOffD (freeBlocks post) none)) =
      headOffD A1 (headOffD [(fb, fbh)] none) from by cases A1 <;> rfl]
    rw [← headOffD_append]
    exact hf0
  have hrnfb : readNext s.mem fb =
      some (headOffD (freeBlocks post) none) :=
    readNext_eq hlkfb hfblink
  -- the two insertion writes
  have hblkfb : (blk : Nat) ≠ fb := by omega
  have hlk2_blk : lookupH (setNext (setNext s.mem blk
      (headOffD (freeBlocks post) none)) fb (some blk)) blk =
      some ⟨bh.size, Link.next (headOffD (freeBlocks post) none)⟩ := by
    rw [lookupH_setNext_ne _ _ _ _ hblkfb]
    exact lookupH_setNext_self _ _ _ _ hlkblk
  have hlk2_fb : lookupH (setNext (setNext s.mem blk
      (headOffD (freeBlocks post) none)) fb (some blk)) fb =
      some ⟨fbh.size, Link.next (some blk)⟩ := by
    have h0 : lookupH (setNext s.mem blk
        (headOffD (freeBlocks post) none)) fb = some fbh := by
      rw [lookupH_setNext_ne _ _ _ _ (Ne.symm hblkfb)]
      exact hlkfb
    exact lookupH_setNext_self _ _ _ _ h0
  have hlk2_other : ∀ x : Nat, x ≠ blk → x ≠ fb →
      lookupH (setNext (setNext s.mem blk
        (headOffD (freeBlocks post) none)) fb (some blk)) x =
      lookupH s.mem x := by
    intro x h1 h2
    rw [lookupH_setNext_ne _ _ _ _ h2, lookupH_setNext_ne _ _ _ _ h1]
  have hrn2 : readNext (setNext (setNext s.mem blk
      (headOffD (freeBlocks post) none)) fb (some blk)) blk =
      some (headOffD (freeBlocks post) none) :=
    readNext_eq hlk2_blk rfl
  have hstep : my_free s (some (blk + HEADER_SIZE)) =
      (match merge_blocks ⟨s.heapSize, setNext (setNext s.mem blk
          (headOffD (freeBlocks post) none)) fb (some blk),
          s.firstFreeBlock⟩ blk (headOffD (freeBlocks post) none) with
        | none => none
        | some s3 => merge_blocks s3 fb (some blk)) := by
    simp only [my_free, Nat.add_sub_cancel, hff,
      if_neg (show ¬ blk + HEADER_SIZE < HEADER_SIZE by
        unfold HEADER_SIZE; omega),
      if_neg (show ¬ blk < f0 by omega)]
    rw [hf0] at hscan
    simp only [hscan, hrnfb, hrn2]
  -- live bookkeeping helpers
  have hpne : blk + HEADER_SIZE ∉ L.erase (blk + HEADER_SIZE) :=
    G.nodupL.not_mem_erase
  have hshift : ∀ x : Nat × Header, x ∈ bs → x.1 ≠ blk →
      (x.2.link = Link.magic ↔
        x.1 + HEADER_SIZE ∈ L.erase (blk + HEADER_SIZE)) := by
    intro x hxbs hxne
    rw [G.live x hxbs]
    rw [List.mem_erase_of_ne (by unfold HEADER_SIZE; omega)]
  have hsubL : ∀ p2 ∈ L.erase (blk + HEADER_SIZE),
      p2 ∈ L ∧ p2 ≠ blk + HEADER_SIZE := by
    intro p2 hp2
    have := (G.nodupL.mem_erase_iff.mp hp2)
    exact ⟨this.2, this.1⟩
  have hfb_notL : fb + HEADER_SIZE ∉ L := by
    intro hin
    have hl := G.live (fb, fbh) (by rw [hbs]; simp [hfb_pre])
    obtain ⟨qf, hqf⟩ := isFree_link hfbfree
    rw [hqf] at hl
    simp at hl
    exact hl hin
  have hbs2 : bs = (pre1 ++ (fb, fbh) :: pre2) ++ (blk, bh) :: post := by
    rw [hbs, hpre_eq]
  by_cases hq1 : headOffD (freeBlocks post) none = some (blk + bh.size)
  all_goals by_cases hpre2nil : pre2 = []
  · -- merge with next fires, merge with prev fires
    rw [hq1] at hstep hlk2_blk hlk2_fb hlk2_other hrn2
    -- decompose post at its (free) head
    have hBne : freeBlocks post ≠ [] := by
      intro hnil
      rw [hnil] at hq1
      simp [headOffD] at hq1
    obtain ⟨b0e, B', hB⟩ := List.exists_cons_of_ne_nil hBne
    obtain ⟨b0, b0h⟩ := b0e
    have hb0off : b0 = blk + bh.size := by
      rw [hB] at hq1
      simpa [headOffD] using hq1
    subst hb0off
    have hb0free : isFree b0h = true :=
      isFree_of_mem_freeBlocks (e := (blk + bh.size, b0h)) (l := post)
        (by rw [hB]; simp)
    have hb0post : (blk + bh.size, b0h) ∈ post := freeBlocks_sub
      (by rw [hB]; simp)
    have hpostne : post ≠ [] := List.ne_nil_of_mem hb0post
    obtain ⟨ph, post', hpe⟩ := List.exists_cons_of_ne_nil hpostne
    rw [hpe] at hpost
    obtain ⟨hph1, hph16, hphmod, hpost'0⟩ := chainSeg_cons.mp hpost
    have hphb0 : ph = (blk + bh.size, b0h) := by
      rw [hpe] at hb0post
      rcases List.mem_cons.mp hb0post with h | h
      · exact h.symm
      · exfalso
        have hb := chainSeg_mem_bounds hpost'0 (blk + bh.size, b0h) h
        simp only at hb
        omega
    subst hphb0
    simp only at hph1 hph16 hphmod
    have hpost' : chainSeg (blk + bh.size + b0h.size) s.heapSize post' =
        true := by simpa using hpost'0
    have hB'eq : freeBlocks post' = B' := by
      rw [hpe, freeBlocks_cons_free hb0free] at hB
      exact (List.cons.inj hB).2
    have hb0link : b0h.link = Link.next (headOffD B' none) := by
      rw [hB] at hlB
      exact (by simpa using ((chainNextTo_cons _ _ _).mp hlB).1)
    have hlB' : chainNextTo B' none = true := by
      rw [hB] at hlB
      exact ((chainNextTo_cons _ _ _).mp hlB).2
    have hlk2_b0 : lookupH (setNext (setNext s.mem blk
        (some (blk + bh.size))) fb (some blk)) (blk + bh.size) =
        some ⟨b0h.size, Link.next (headOffD B' none)⟩ := by
      rw [hlk2_other _ (by omega) (by omega)]
      have h0 : lookupH s.mem (blk + bh.size) = some b0h :=
        G.mem_ok (blk + bh.size, b0h) (by rw [hbs, hpe]; simp)
      rw [h0]
      congr 1
      calc b0h = ⟨b0h.size, b0h.link⟩ := rfl
        _ = _ := by rw [hb0link]
    have hm1 := merge_blocks_fire (s := ⟨s.heapSize, setNext (setNext s.mem
        blk (some (blk + bh.size))) fb (some blk),
        s.firstFreeBlock⟩) hlk2_blk rfl hlk2_b0
    have hsum1 : (bh.size + b0h.size) % U64 = bh.size + b0h.size := by
      apply Nat.mod_eq_of_lt
      have := chainSeg_le hpost'
      omega
    -- after merge1, the fb entry is unchanged, blk's entry was rewritten
    have hlk3_fb : lookupH (writeH (setNext (setNext s.mem blk
        (some (blk + bh.size))) fb (some blk)) blk
        ⟨(bh.size + b0h.size) % U64, Link.next (headOffD B' none)⟩) fb =
        some ⟨fbh.size, Link.next (some blk)⟩ := by
      rw [lookupH_writeH_ne _ _ _ _ (Ne.symm hblkfb)]
      exact hlk2_fb
    have hlk3_blk : lookupH (writeH (setNext (setNext s.mem blk
        (some (blk + bh.size))) fb (some blk)) blk
        ⟨(bh.size + b0h.size) % U64, Link.next (headOffD B' none)⟩) blk =
        some ⟨bh.size + b0h.size, Link.next (headOffD B' none)⟩ := by
      rw [lookupH_writeH_self, hsum1]
    have hfbadj : fb + fbh.size = blk := by
      rw [hpre2nil, chainSeg_nil] at hpre2c
      exact hpre2c
    have hm2 := merge_blocks_fire (s := ⟨s.heapSize, writeH (setNext
        (setNext s.mem blk (some (blk + bh.size))) fb (some blk))
        blk ⟨(bh.size + b0h.size) % U64, Link.next (headOffD B' none)⟩,
        s.firstFreeBlock⟩) hlk3_fb hfbadj hlk3_blk
    have hsum2 : (fbh.size + (bh.size + b0h.size)) % U64 =
        fbh.size + (bh.size + b0h.size) := by
      apply Nat.mod_eq_of_lt
      have := chainSeg_le hpost'
      omega
    refine ⟨⟨s.heapSize, writeH (writeH (setNext (setNext s.mem blk
        (some (blk + bh.size))) fb (some blk)) blk
        ⟨(bh.size + b0h.size) % U64, Link.next (headOffD B' none)⟩) fb
        ⟨(fbh.size + (bh.size + b0h.size)) % U64,
          Link.next (headOffD B' none)⟩, s.firstFreeBlock⟩,
      pre1 ++ (fb, ⟨fbh.size + (bh.size + b0h.size),
        Link.next (headOffD B' none)⟩) :: post', ?_, ?_, rfl⟩
    · rw [hstep, hm1]
      exact hm2
    -- final lookups
    have hlkF_fb : lookupH (writeH (writeH (setNext (setNext s.mem blk
        (some (blk + bh.size))) fb (some blk)) blk
        ⟨(bh.size + b0h.size) % U64, Link.next (headOffD B' none)⟩) fb
        ⟨(fbh.size + (bh.size + b0h.size)) % U64,
          Link.next (headOffD B' none)⟩) fb =
        some ⟨fbh.size + (bh.size + b0h.size),
          Link.next (headOffD B' none)⟩ := by
      rw [lookupH_writeH_self, hsum2]
    have hlkF_other : ∀ x : Nat, x ≠ blk → x ≠ fb →
        lookupH (writeH (writeH (setNext (setNext s.mem blk
          (some (blk + bh.size))) fb (some blk)) blk
          ⟨(bh.size + b0h.size) % U64, Link.next (headOffD B' none)⟩) fb
          ⟨(fbh.size + (bh.size + b0h.size)) % U64,
            Link.next (headOffD B' none)⟩) x = lookupH s.mem x := by
      intro x h1 h2
      rw [lookupH_writeH_ne _ _ _ _ h2, lookupH_writeH_ne _ _ _ _ h1]
      exact hlk2_other x h1 h2
    have hpost'bnd : ∀ e ∈ post', blk + bh.size + b0h.size ≤ e.1 :=
      fun e he => (chainSeg_mem_bounds hpost' e he).1
    have hfs2 : freeBlocks (pre1 ++ (fb, ⟨fbh.size + (bh.size + b0h.size),
        Link.next (headOffD B' none)⟩) :: post') =
        A1 ++ (fb, ⟨fbh.size + (bh.size + b0h.size),
          Link.next (headOffD B' none)⟩) :: B' := by
      rw [freeBlocks_append, freeBlocks_cons_free (by simp [isFree]), hfb1,
        hB'eq]
    constructor
    · -- shape
      rw [chainSeg_append, ← hfboff]
      refine ⟨by rw [hfboff]; exact hpre1c, ?_⟩
      refine chainSeg_cons.mpr ⟨rfl, by simp; omega, by simp; omega, ?_⟩
      show chainSeg (fb + (fbh.size + (bh.size + b0h.size)))
        s.heapSize post' = true
      rw [show fb + (fbh.size + (bh.size + b0h.size)) =
        blk + bh.size + b0h.size by omega]
      exact hpost'
    · -- mem_ok
      intro e he
      rw [List.mem_append, List.mem_cons] at he
      rcases he with he | he | he
      · rw [hlkF_other _ (by have := hpre1bnd e he; omega)
          (by have := hpre1bnd e he; omega)]
        exact G.mem_ok e (by rw [hbs2]; simp [he])
      · subst he
        exact hlkF_fb
      · rw [hlkF_other _ (by have := hpost'bnd e he; omega)
          (by have := hpost'bnd e he; omega)]
        exact G.mem_ok e (by rw [hbs, hpe]; simp [he])
    · -- ff_eq
      show s.firstFreeBlock = _
      rw [hfs2, headOffO_eq_headOffD, hff, ← hf0]
      rw [show headOffD (A1 ++ (fb, ⟨fbh.size + (bh.size + b0h.size),
        Link.next (headOffD B' none)⟩) :: B') none =
        headOffD (A1 ++ [(fb, fbh)]) none from by
          rw [headOffD_append, headOffD_append]
          cases A1 <;> rfl]
    · -- links
      rw [chainNext, hfs2, chainNextTo_append, Bool.and_eq_true]
      refine ⟨by simpa [headOffD] using hA1chain, ?_⟩
      rw [chainNextTo_cons]
      refine ⟨?_, hlB'⟩
      cases B' <;> rfl
    · -- noadj
      have hnoadj := G.noadj
      rw [hfs, hAc, hB] at hnoadj
      have hre : (A1 ++ [(fb, fbh)]) ++ (blk + bh.size, b0h) :: B' =
          A1 ++ (fb, fbh) :: (blk + bh.size, b0h) :: B' := by simp
      rw [hre, List.chain'_append] at hnoadj
      obtain ⟨hc1, hc2, hc3⟩ := hnoadj
      rw [hfs2, List.chain'_append]
      refine ⟨hc1, ?_, ?_⟩
      · rw [List.chain'_cons']
        obtain ⟨-, hc2t⟩ := List.chain'_cons'.mp hc2
        obtain ⟨hpair_b0, hcB'⟩ := List.chain'_cons'.mp hc2t
        refine ⟨?_, hcB'⟩
        intro y hy
        have := hpair_b0 y hy
        show fb + (fbh.size + (bh.size + b0h.size)) ≠ y.1
        simp only [notAdj] at this
        omega
      · intro x hx y hy
        simp only [List.head?_cons, Option.mem_some_iff] at hy
        subst hy
        have := hc3 x hx (fb, fbh) (by simp [List.head?])
        exact this
    · -- live
      intro e he
      rw [List.mem_append, List.mem_cons] at he
      rcases he with he | he | he
      · exact hshift e (by rw [hbs2]; simp [he])
          (by have := hpre1bnd e he; omega)
      · subst he
        show Link.next (headOffD B' none) = Link.magic ↔
          fb + HEADER_SIZE ∈ L.erase (blk + HEADER_SIZE)
        constructor
        · intro hcon
          exact absurd hcon (by simp)
        · intro hp
          exact absurd ((hsubL _ hp).1) hfb_notL
      · exact hshift e (by rw [hbs, hpe]; simp [he])
          (by have := hpost'bnd e he; omega)
    · -- live_sub
      intro p2 hp2
      obtain ⟨hp2L, hp2ne⟩ := hsubL p2 hp2
      obtain ⟨e, he, rfl⟩ := G.live_sub p2 hp2L
      rw [hbs2, hpe] at he
      simp only [List.mem_append, List.mem_cons] at he
      rcases he with (he | he | he) | he | he | he
      · exact ⟨e, by simp [he], rfl⟩
      · subst he
        exact ⟨(fb, ⟨fbh.size + (bh.size + b0h.size),
          Link.next (headOffD B' none)⟩), by simp, rfl⟩
      · exact absurd he (by simp [hpre2nil])
      · exfalso
        subst he
        simp at hp2ne
      · exfalso
        subst he
        have hl := G.live (blk + bh.size, b0h) (by rw [hbs, hpe]; simp)
        obtain ⟨qb, hqb⟩ := isFree_link hb0free
        rw [hqb] at hl
        simp at hl
        exact hl hp2L
      · exact ⟨e, by simp [he], rfl⟩
    · -- noundef
      intro e he
      rw [List.mem_append, List.mem_cons] at he
      rcases he with he | he | he
      · exact G.noundef e (by rw [hbs2]; simp [he])
      · subst he; simp
      · exact G.noundef e (by rw [hbs, hpe]; simp [he])
    · -- nodupL
      exact G.nodupL.erase _
  · -- merge with next fires, merge with prev does not (pre2 ≠ [])
    rw [hq1] at hstep hlk2_blk hlk2_fb hlk2_other hrn2
    have hBne : freeBlocks post ≠ [] := by
      intro hnil
      rw [hnil] at hq1
      simp [headOffD] at hq1
    obtain ⟨b0e, B', hB⟩ := List.exists_cons_of_ne_nil hBne
    obtain ⟨b0, b0h⟩ := b0e
    have hb0off : b0 = blk + bh.size := by
      rw [hB] at hq1
      simpa [headOffD] using hq1
    subst hb0off
    have hb0free : isFree b0h = true :=
      isFree_of_mem_freeBlocks (e := (blk + bh.size, b0h)) (l := post)
        (by rw [hB]; simp)
    have hb0post : (blk + bh.size, b0h) ∈ post := freeBlocks_sub
      (by rw [hB]; simp)
    have hpostne : post ≠ [] := List.ne_nil_of_mem hb0post
    obtain ⟨ph, post', hpe⟩ := List.exists_cons_of_ne_nil hpostne
    rw [hpe] at hpost
    obtain ⟨hph1, hph16, hphmod, hpost'0⟩ := chainSeg_cons.mp hpost
    have hphb0 : ph = (blk + bh.size, b0h) := by
      rw [hpe] at hb0post
      rcases List.mem_cons.mp hb0post with h | h
      · exact h.symm
      · exfalso
        have hb := chainSeg_mem_bounds hpost'0 (blk + bh.size, b0h) h
        simp only at hb
        omega
    subst hphb0
    simp only at hph1 hph16 hphmod
    have hpost' : chainSeg (blk + bh.size + b0h.size) s.heapSize post' =
        true := by simpa using hpost'0
    have hB'eq : freeBlocks post' = B' := by
      rw [hpe, freeBlocks_cons_free hb0free] at hB
      exact (List.cons.inj hB).2
    have hb0link : b0h.link = Link.next (headOffD B' none) := by
      rw [hB] at hlB
      exact (by simpa using ((chainNextTo_cons _ _ _).mp hlB).1)
    have hlB' : chainNextTo B' none = true := by
      rw [hB] at hlB
      exact ((chainNextTo_cons _ _ _).mp hlB).2
    have hlk2_b0 : lookupH (setNext (setNext s.mem blk
        (some (blk + bh.size))) fb (some blk)) (blk + bh.size) =
        some ⟨b0h.size, Link.next (headOffD B' none)⟩ := by
      rw [hlk2_other _ (by omega) (by omega)]
      have h0 : lookupH s.mem (blk + bh.size) = some b0h :=
        G.mem_ok (blk + bh.size, b0h) (by rw [hbs, hpe]; simp)
      rw [h0]
      congr 1
      calc b0h = ⟨b0h.size, b0h.link⟩ := rfl
        _ = _ := by rw [hb0link]
    have hm1 := merge_blocks_fire (s := ⟨s.heapSize, setNext (setNext s.mem
        blk (some (blk + bh.size))) fb (some blk),
        s.firstFreeBlock⟩) hlk2_blk rfl hlk2_b0
    have hsum1 : (bh.size + b0h.size) % U64 = bh.size + b0h.size := by
      apply Nat.mod_eq_of_lt
      have := chainSeg_le hpost'
      omega
    have hlk3_fb : lookupH (writeH (setNext (setNext s.mem blk
        (some (blk + bh.size))) fb (some blk)) blk
        ⟨(bh.size + b0h.size) % U64, Link.next (headOffD B' none)⟩) fb =
        some ⟨fbh.size, Link.next (some blk)⟩ := by
      rw [lookupH_writeH_ne _ _ _ _ (Ne.symm hblkfb)]
      exact hlk2_fb
    have hfbnadj : fb + fbh.size ≠ blk := by
      obtain ⟨e2, pre2', hpre2e⟩ := List.exists_cons_of_ne_nil hpre2nil
      rw [hpre2e] at hpre2c
      obtain ⟨he2off, he216, -, he2c⟩ := chainSeg_cons.mp hpre2c
      have := chainSeg_le he2c
      omega
    have hm2 := merge_blocks_noop (s := ⟨s.heapSize, writeH (setNext
        (setNext s.mem blk (some (blk + bh.size))) fb (some blk))
        blk ⟨(bh.size + b0h.size) % U64, Link.next (headOffD B' none)⟩,
        s.firstFreeBlock⟩) hlk3_fb (by simpa using hfbnadj)
    refine ⟨⟨s.heapSize, writeH (setNext (setNext s.mem blk
        (some (blk + bh.size))) fb (some blk)) blk
        ⟨(bh.size + b0h.size) % U64, Link.next (headOffD B' none)⟩,
        s.firstFreeBlock⟩,
      (pre1 ++ (fb, ⟨fbh.size, Link.next (some blk)⟩) :: pre2) ++
        (blk, ⟨bh.size + b0h.size, Link.next (headOffD B' none)⟩) :: post',
      ?_, ?_, rfl⟩
    · rw [hstep, hm1]
      exact hm2
    have hlkF_blk : lookupH (writeH (setNext (setNext s.mem blk
        (some (blk + bh.size))) fb (some blk)) blk
        ⟨(bh.size + b0h.size) % U64, Link.next (headOffD B' none)⟩) blk =
        some ⟨bh.size + b0h.size, Link.next (headOffD B' none)⟩ := by
      rw [lookupH_writeH_self, hsum1]
    have hlkF_other : ∀ x : Nat, x ≠ blk → x ≠ fb →
        lookupH (writeH (setNext (setNext s.mem blk
          (some (blk + bh.size))) fb (some blk)) blk
          ⟨(bh.size + b0h.size) % U64, Link.next (headOffD B' none)⟩) x =
        lookupH s.mem x := by
      intro x h1 h2
      rw [lookupH_writeH_ne _ _ _ _ h1]
      exact hlk2_other x h1 h2
    have hpost'bnd : ∀ e ∈ post', blk + bh.size + b0h.size ≤ e.1 :=
      fun e he => (chainSeg_mem_bounds hpost' e he).1
    have hfs2 : freeBlocks ((pre1 ++ (fb, ⟨fbh.size, Link.next (some blk)⟩)
        :: pre2) ++ (blk, ⟨bh.size + b0h.size,
          Link.next (headOffD B' none)⟩) :: post') =
        A1 ++ (fb, ⟨fbh.size, Link.next (some blk)⟩) ::
          (blk, ⟨bh.size + b0h.size, Link.next (headOffD B' none)⟩) ::
          B' := by
      rw [freeBlocks_append, freeBlocks_append,
        freeBlocks_cons_free (by simp [isFree]), hfb1, hfb2,
        freeBlocks_cons_free (by simp [isFree]), hB'eq]
      simp
    constructor
    · -- shape
      rw [chainSeg_append]
      have hpre'' : chainSeg 0 blk (pre1 ++ (fb, fbh) :: pre2) = true := by
        rw [← hpre_eq]
        exact hpre
      have hpre' : chainSeg 0 blk (pre1 ++ (fb, ⟨fbh.size,
          Link.next (some blk)⟩) :: pre2) = true := by
        refine chainSeg_of_forall₂ ?_ hpre''
        exact forall₂_append (forall₂_sameGeom_refl pre1)
          (List.Forall₂.cons ⟨rfl, rfl⟩ (forall₂_sameGeom_refl pre2))
      rw [endOff_eq_of_chainSeg hpre']
      refine ⟨hpre', ?_⟩
      refine chainSeg_cons.mpr ⟨rfl, by simp; omega, by simp; omega, ?_⟩
      show chainSeg (blk + (bh.size + b0h.size)) s.heapSize post' = true
      rw [← Nat.add_assoc]
      exact hpost'
    · -- mem_ok
      intro e he
      simp only [List.mem_append, List.mem_cons] at he
      rcases he with (he | he | he) | he | he
      · rw [hlkF_other _ (by have := hpre1bnd e he; omega)
          (by have := hpre1bnd e he; omega)]
        exact G.mem_ok e (by rw [hbs2]; simp [he])
      · subst he
        exact hlk3_fb
      · rw [hlkF_other _ (by have := hpre2bnd e he; omega)
          (by have := hpre2bnd e he; omega)]
        exact G.mem_ok e (by rw [hbs2]; simp [he])
      · subst he
        exact hlkF_blk
      · rw [hlkF_other _ (by have := hpost'bnd e he; omega)
          (by have := hpost'bnd e he; omega)]
        exact G.mem_ok e (by rw [hbs, hpe]; simp [he])
    · -- ff_eq
      show s.firstFreeBlock = _
      rw [hfs2, headOffO_eq_headOffD, hff, ← hf0]
      rw [show headOffD (A1 ++ (fb, ⟨fbh.size, Link.next (some blk)⟩) ::
        (blk, ⟨bh.size + b0h.size, Link.next (headOffD B' none)⟩) :: B')
        none = headOffD (A1 ++ [(fb, fbh)]) none from by
          rw [headOffD_append, headOffD_append]
          cases A1 <;> rfl]
    · -- links
      rw [chainNext, hfs2, chainNextTo_append, Bool.and_eq_true]
      refine ⟨by simpa [headOffD] using hA1chain, ?_⟩
      rw [chainNextTo_cons]
      refine ⟨rfl, ?_⟩
      rw [chainNextTo_cons]
      refine ⟨?_, hlB'⟩
      cases B' <;> rfl
    · -- noadj
      have hnoadj := G.noadj
      rw [hfs, hAc, hB] at hnoadj
      have hre : (A1 ++ [(fb, fbh)]) ++ (blk + bh.size, b0h) :: B' =
          A1 ++ (fb, fbh) :: (blk + bh.size, b0h) :: B' := by simp
      rw [hre, List.chain'_append] at hnoadj
      obtain ⟨hc1, hc2, hc3⟩ := hnoadj
      rw [hfs2, List.chain'_append]
      refine ⟨hc1, ?_, ?_⟩
      · rw [List.chain'_cons']
        obtain ⟨-, hc2t⟩ := List.chain'_cons'.mp hc2
        obtain ⟨hpair_b0, hcB'⟩ := List.chain'_cons'.mp hc2t
        refine ⟨?_, ?_⟩
        · intro y hy
          simp only [List.head?_cons, Option.mem_some_iff] at hy
          subst hy
          show fb + fbh.size ≠ blk
          exact hfbnadj
        · rw [List.chain'_cons']
          refine ⟨?_, hcB'⟩
          intro y hy
          have := hpair_b0 y hy
          show blk + (bh.size + b0h.size) ≠ y.1
          simp only [notAdj] at this
          omega
      · intro x hx y hy
        simp only [List.head?_cons, Option.mem_some_iff] at hy
        subst hy
        have := hc3 x hx (fb, fbh) (by simp [List.head?])
        exact this
    · -- live
      intro e he
      simp only [List.mem_append, List.mem_cons] at he
      rcases he with (he | he | he) | he | he
      · exact hshift e (by rw [hbs2]; simp [he])
          (by have := hpre1bnd e he; omega)
      · subst he
        show Link.next (some blk) = Link.magic ↔
          fb + HEADER_SIZE ∈ L.erase (blk + HEADER_SIZE)
        constructor
        · intro hcon
          exact absurd hcon (by simp)
        · intro hp
          exact absurd ((hsubL _ hp).1) hfb_notL
      · exact hshift e (by rw [hbs2]; simp [he])
          (by have := hpre2bnd e he; omega)
      · subst he
        show Link.next (headOffD B' none) = Link.magic ↔
          blk + HEADER_SIZE ∈ L.erase (blk + HEADER_SIZE)
        constructor
        · intro hcon
          exact absurd hcon (by simp)
        · intro hp
          exact absurd hp hpne
      · exact hshift e (by rw [hbs, hpe]; simp [he])
          (by have := hpost'bnd e he; omega)
    · -- live_sub
      intro p2 hp2
      obtain ⟨hp2L, hp2ne⟩ := hsubL p2 hp2
      obtain ⟨e, he, rfl⟩ := G.live_sub p2 hp2L
      rw [hbs2, hpe] at he
      simp only [List.mem_append, List.mem_cons] at he
      rcases he with (he | he | he) | he | he | he
      · exact ⟨e, by simp [he], rfl⟩
      · subst he
        exact ⟨(fb, ⟨fbh.size, Link.next (some blk)⟩), by simp, rfl⟩
      · exact ⟨e, by simp [he], rfl⟩
      · exfalso
        subst he
        simp at hp2ne
      · exfalso
        subst he
        have hl := G.live (blk + bh.size, b0h) (by rw [hbs, hpe]; simp)
        obtain ⟨qb, hqb⟩ := isFree_link hb0free
        rw [hqb] at hl
        simp at hl
        exact hl hp2L
      · exact ⟨e, by simp [he], rfl⟩
    · -- noundef
      intro e he
      simp only [List.mem_append, List.mem_cons] at he
      rcases he with (he | he | he) | he | he
      · exact G.noundef e (by rw [hbs2]; simp [he])
      · subst he; simp
      · exact G.noundef e (by rw [hbs2]; simp [he])
      · subst he; simp
      · exact G.noundef e (by rw [hbs, hpe]; simp [he])
    · -- nodupL
      exact G.nodupL.erase _
  · -- merge with next does not fire, merge with prev fires (pre2 = [])
    have hm1 : merge_blocks ⟨s.heapSize, setNext (setNext s.mem blk
        (headOffD (freeBlocks post) none)) fb (some blk),
        s.firstFreeBlock⟩ blk (headOffD (freeBlocks post) none) =
        some ⟨s.heapSize, setNext (setNext s.mem blk
          (headOffD (freeBlocks post) none)) fb (some blk),
          s.firstFreeBlock⟩ := by
      cases hqv : headOffD (freeBlocks post) none with
      | none => exact merge_blocks_null (hqv ▸ hlk2_blk)
      | some b0 =>
        refine merge_blocks_noop (hqv ▸ hlk2_blk) ?_
        have := hq_gt b0 hqv
        intro hcon
        simp only at hcon
        rw [hqv] at hq1
        simp only [Option.some.injEq] at hq1
        omega
    have hfbadj : fb + fbh.size = blk := by
      rw [hpre2nil, chainSeg_nil] at hpre2c
      exact hpre2c
    have hm2 := merge_blocks_fire (s := ⟨s.heapSize, setNext (setNext s.mem
        blk (headOffD (freeBlocks post) none)) fb (some blk),
        s.firstFreeBlock⟩) hlk2_fb hfbadj hlk2_blk
    have hsum2 : (fbh.size + bh.size) % U64 = fbh.size + bh.size := by
      apply Nat.mod_eq_of_lt
      omega
    refine ⟨⟨s.heapSize, writeH (setNext (setNext s.mem blk
        (headOffD (freeBlocks post) none)) fb (some blk)) fb
        ⟨(fbh.size + bh.size) % U64,
          Link.next (headOffD (freeBlocks post) none)⟩, s.firstFreeBlock⟩,
      pre1 ++ (fb, ⟨fbh.size + bh.size,
        Link.next (headOffD (freeBlocks post) none)⟩) :: post, ?_, ?_, rfl⟩
    · rw [hstep, hm1]
      exact hm2
    have hlkF_fb : lookupH (writeH (setNext (setNext s.mem blk
        (headOffD (freeBlocks post) none)) fb (some blk)) fb
        ⟨(fbh.size + bh.size) % U64,
          Link.next (headOffD (freeBlocks post) none)⟩) fb =
        some ⟨fbh.size + bh.size,
          Link.next (headOffD (freeBlocks post) none)⟩ := by
      rw [lookupH_writeH_self, hsum2]
    have hlkF_other : ∀ x : Nat, x ≠ blk → x ≠ fb →
        lookupH (writeH (setNext (setNext s.mem blk
          (headOffD (freeBlocks post) none)) fb (some blk)) fb
          ⟨(fbh.size + bh.size) % U64,
            Link.next (headOffD (freeBlocks post) none)⟩) x =
        lookupH s.mem x := by
      intro x h1 h2
      rw [lookupH_writeH_ne _ _ _ _ h2]
      exact hlk2_other x h1 h2
    have hfs2 : freeBlocks (pre1 ++ (fb, ⟨fbh.size + bh.size,
        Link.next (headOffD (freeBlocks post) none)⟩) :: post) =
        A1 ++ (fb, ⟨fbh.size + bh.size,
          Link.next (headOffD (freeBlocks post) none)⟩) ::
          freeBlocks post := by
      rw [freeBlocks_append, freeBlocks_cons_free (by simp [isFree]), hfb1]
    constructor
    · -- shape
      rw [chainSeg_append, ← hfboff]
      refine ⟨by rw [hfboff]; exact hpre1c, ?_⟩
      refine chainSeg_cons.mpr ⟨rfl, by simp; omega, by simp; omega, ?_⟩
      show chainSeg (fb + (fbh.size + bh.size)) s.heapSize post = true
      rw [show fb + (fbh.size + bh.size) = blk + bh.size by omega]
      exact hpost
    · -- mem_ok
      intro e he
      rw [List.mem_append, List.mem_cons] at he
      rcases he with he | he | he
      · rw [hlkF_other _ (by have := hpre1bnd e he; omega)
          (by have := hpre1bnd e he; omega)]
        exact G.mem_ok e (by rw [hbs2]; simp [he])
      · subst he
        exact hlkF_fb
      · rw [hlkF_other _ (by have := hbo_post e he; omega)
          (by have := hbo_post e he; have := hfbblk; omega)]
        exact G.mem_ok e (by rw [hbs]; simp [he])
    · -- ff_eq
      show s.firstFreeBlock = _
      rw [hfs2, headOffO_eq_headOffD, hff, ← hf0]
      rw [show headOffD (A1 ++ (fb, ⟨fbh.size + bh.size,
        Link.next (headOffD (freeBlocks post) none)⟩) :: freeBlocks post)
        none = headOffD (A1 ++ [(fb, fbh)]) none from by
          rw [headOffD_append, headOffD_append]
          cases A1 <;> rfl]
    · -- links
      rw [chainNext, hfs2, chainNextTo_append, Bool.and_eq_true]
      refine ⟨by simpa [headOffD] using hA1chain, ?_⟩
      rw [chainNextTo_cons]
      refine ⟨?_, hlB⟩
      cases hfp : freeBlocks post <;> simp [headOffD, hfp]
    · -- noadj
      have hnoadj := G.noadj
      rw [hfs, hAc] at hnoadj
      have hre : (A1 ++ [(fb, fbh)]) ++ freeBlocks post =
          A1 ++ (fb, fbh) :: freeBlocks post := by simp
      rw [hre, List.chain'_append] at hnoadj
      obtain ⟨hc1, hc2, hc3⟩ := hnoadj
      rw [hfs2, List.chain'_append]
      refine ⟨hc1, ?_, ?_⟩
      · rw [List.chain'_cons']
        obtain ⟨-, hcB⟩ := List.chain'_cons'.mp hc2
        refine ⟨?_, hcB⟩
        intro y hy
        have hyB := List.mem_of_mem_head? hy
        have hypost := hpostbnd y (freeBlocks_sub hyB)
        have hyq : headOffD (freeBlocks post) none = some y.1 := by
          cases hfp : freeBlocks post with
          | nil => rw [hfp] at hy; simp at hy
          | cons z zs =>
            rw [hfp] at hy
            simp only [List.head?_cons, Option.mem_some_iff] at hy
            subst hy
            rfl
        show fb + (fbh.size + bh.size) ≠ y.1
        intro hcon
        apply hq1
        rw [hyq]
        congr 1
        omega
      · intro x hx y hy
        simp only [List.head?_cons, Option.mem_some_iff] at hy
        subst hy
        have := hc3 x hx (fb, fbh) (by simp [List.head?])
        exact this
    · -- live
      intro e he
      rw [List.mem_append, List.mem_cons] at he
      rcases he with he | he | he
      · exact hshift e (by rw [hbs2]; simp [he])
          (by have := hpre1bnd e he; omega)
      · subst he
        show Link.next (headOffD (freeBlocks post) none) = Link.magic ↔
          fb + HEADER_SIZE ∈ L.erase (blk + HEADER_SIZE)
        constructor
        · intro hcon
          exact absurd hcon (by simp)
        · intro hp
          exact absurd ((hsubL _ hp).1) hfb_notL
      · exact hshift e (by rw [hbs]; simp [he])
          (by have := hbo_post e he; omega)
    · -- live_sub
      intro p2 hp2
      obtain ⟨hp2L, hp2ne⟩ := hsubL p2 hp2
      obtain ⟨e, he, rfl⟩ := G.live_sub p2 hp2L
      rw [hbs2] at he
      simp only [List.mem_append, List.mem_cons] at he
      rcases he with (he | he | he) | he | he
      · exact ⟨e, by simp [he], rfl⟩
      · subst he
        exact ⟨(fb, ⟨fbh.size + bh.size,
          Link.next (headOffD (freeBlocks post) none)⟩), by simp, rfl⟩
      · exact absurd he (by simp [hpre2nil])
      · exfalso
        subst he
        simp at hp2ne
      · exact ⟨e, by simp [he], rfl⟩
    · -- noundef
      intro e he
      rw [List.mem_append, List.mem_cons] at he
      rcases he with he | he | he
      · exact G.noundef e (by rw [hbs2]; simp [he])
      · subst he; simp
      · exact G.noundef e (by rw [hbs]; simp [he])
    · -- nodupL
      exact G.nodupL.erase _
  · -- neither merge fires
    have hm1 : merge_blocks ⟨s.heapSize, setNext (setNext s.mem blk
        (headOffD (freeBlocks post) none)) fb (some blk),
        s.firstFreeBlock⟩ blk (headOffD (freeBlocks post) none) =
        some ⟨s.heapSize, setNext (setNext s.mem blk
          (headOffD (freeBlocks post) none)) fb (some blk),
          s.firstFreeBlock⟩ := by
      cases hqv : headOffD (freeBlocks post) none with
      | none => exact merge_blocks_null (hqv ▸ hlk2_blk)
      | some b0 =>
        refine merge_blocks_noop (hqv ▸ hlk2_blk) ?_
        have := hq_gt b0 hqv
        intro hcon
        simp only at hcon
        rw [hqv] at hq1
        simp only [Option.some.injEq] at hq1
        omega
    have hfbnadj : fb + fbh.size ≠ blk := by
      obtain ⟨e2, pre2', hpre2e⟩ := List.exists_cons_of_ne_nil hpre2nil
      rw [hpre2e] at hpre2c
      obtain ⟨he2off, he216, -, he2c⟩ := chainSeg_cons.mp hpre2c
      have := chainSeg_le he2c
      omega
    have hm2 := merge_blocks_noop (s := ⟨s.heapSize, setNext (setNext s.mem
        blk (headOffD (freeBlocks post) none)) fb (some blk),
        s.firstFreeBlock⟩) hlk2_fb (by simpa using hfbnadj)
    refine ⟨⟨s.heapSize, setNext (setNext s.mem blk
        (headOffD (freeBlocks post) none)) fb (some blk), s.firstFreeBlock⟩,
      (pre1 ++ (fb, ⟨fbh.size, Link.next (some blk)⟩) :: pre2) ++
        (blk, ⟨bh.size, Link.next (headOffD (freeBlocks post) none)⟩) ::
        post, ?_, ?_, rfl⟩
    · rw [hstep, hm1]
      exact hm2
    have hlkF_other : ∀ x : Nat, x ≠ blk → x ≠ fb →
        lookupH (setNext (setNext s.mem blk
          (headOffD (freeBlocks post) none)) fb (some blk)) x =
        lookupH s.mem x := hlk2_other
    have hfs2 : freeBlocks ((pre1 ++ (fb, ⟨fbh.size, Link.next (some blk)⟩)
        :: pre2) ++ (blk, ⟨bh.size,
          Link.next (headOffD (freeBlocks post) none)⟩) :: post) =
        A1 ++ (fb, ⟨fbh.size, Link.next (some blk)⟩) ::
          (blk, ⟨bh.size, Link.next (headOffD (freeBlocks post) none)⟩) ::
          freeBlocks post := by
      rw [freeBlocks_append, freeBlocks_append,
        freeBlocks_cons_free (by simp [isFree]), hfb1, hfb2,
        freeBlocks_cons_free (by simp [isFree])]
      simp
    constructor
    · -- shape
      refine chainSeg_of_forall₂ ?_ G.shape
      rw [hbs2]
      refine forall₂_append (forall₂_append (forall₂_sameGeom_refl pre1)
        (List.Forall₂.cons ⟨rfl, rfl⟩ (forall₂_sameGeom_refl pre2)))
        (List.Forall₂.cons ⟨rfl, rfl⟩ (forall₂_sameGeom_refl post))
    · -- mem_ok
      intro e he
      simp only [List.mem_append, List.mem_cons] at he
      rcases he with (he | he | he) | he | he
      · rw [hlkF_other _ (by have := hpre1bnd e he; omega)
          (by have := hpre1bnd e he; omega)]
        exact G.mem_ok e (by rw [hbs2]; simp [he])
      · subst he
        exact hlk2_fb
      · rw [hlkF_other _ (by have := hpre2bnd e he; omega)
          (by have := hpre2bnd e he; omega)]
        exact G.mem_ok e (by rw [hbs2]; simp [he])
      · subst he
        exact hlk2_blk
      · rw [hlkF_other _ (by have := hbo_post e he; omega)
          (by have := hbo_post e he; have := hfbblk; omega)]
        exact G.mem_ok e (by rw [hbs]; simp [he])
    · -- ff_eq
      show s.firstFreeBlock = _
      rw [hfs2, headOffO_eq_headOffD, hff, ← hf0]
      rw [show headOffD (A1 ++ (fb, ⟨fbh.size, Link.next (some blk)⟩) ::
        (blk, ⟨bh.size, Link.next (headOffD (freeBlocks post) none)⟩) ::
        freeBlocks post) none = headOffD (A1 ++ [(fb, fbh)]) none from by
          rw [headOffD_append, headOffD_append]
          cases A1 <;> rfl]
    · -- links
      rw [chainNext, hfs2, chainNextTo_append, Bool.and_eq_true]
      refine ⟨by simpa [headOffD] using hA1chain, ?_⟩
      rw [chainNextTo_cons]
      refine ⟨rfl, ?_⟩
      rw [chainNextTo_cons]
      refine ⟨?_, hlB⟩
      cases hfp : freeBlocks post <;> simp [headOffD, hfp]
    · -- noadj
      have hnoadj := G.noadj
      rw [hfs, hAc] at hnoadj
      have hre : (A1 ++ [(fb, fbh)]) ++ freeBlocks post =
          A1 ++ (fb, fbh) :: freeBlocks post := by simp
      rw [hre, List.chain'_append] at hnoadj
      obtain ⟨hc1, hc2, hc3⟩ := hnoadj
      rw [hfs2, List.chain'_append]
      refine ⟨hc1, ?_, ?_⟩
      · rw [List.chain'_cons']
        obtain ⟨-, hcB⟩ := List.chain'_cons'.mp hc2
        refine ⟨?_, ?_⟩
        · intro y hy
          simp only [List.head?_cons, Option.mem_some_iff] at hy
          subst hy
          show fb + fbh.size ≠ blk
          exact hfbnadj
        · rw [List.chain'_cons']
          refine ⟨?_, hcB⟩
          intro y hy
          have hyB := List.mem_of_mem_head? hy
          have hyq : headOffD (freeBlocks post) none = some y.1 := by
            cases hfp : freeBlocks post with
            | nil => rw [hfp] at hy; simp at hy
            | cons z zs =>
              rw [hfp] at hy
              simp only [List.head?_cons, Option.mem_some_iff] at hy
              subst hy
              rfl
          show blk + bh.size ≠ y.1
          intro hcon
          apply hq1
          rw [hyq]
          congr 1
          omega
      · intro x hx y hy
        simp only [List.head?_cons, Option.mem_some_iff] at hy
        subst hy
        have := hc3 x hx (fb, fbh) (by simp [List.head?])
        exact this
    · -- live
      intro e he
      simp only [List.mem_append, List.mem_cons] at he
      rcases he with (he | he | he) | he | he
      · exact hshift e (by rw [hbs2]; simp [he])
          (by have := hpre1bnd e he; omega)
      · subst he
        show Link.next (some blk) = Link.magic ↔
          fb + HEADER_SIZE ∈ L.erase (blk + HEADER_SIZE)
        constructor
        · intro hcon
          exact absurd hcon (by simp)
        · intro hp
          exact absurd ((hsubL _ hp).1) hfb_notL
      · exact hshift e (by rw [hbs2]; simp [he])
          (by have := hpre2bnd e he; omega)
      · subst he
        show Link.next (headOffD (freeBlocks post) none) = Link.magic ↔
          blk + HEADER_SIZE ∈ L.erase (blk + HEADER_SIZE)
        constructor
        · intro hcon
          exact absurd hcon (by simp)
        · intro hp
          exact absurd hp hpne
      · exact hshift e (by rw [hbs]; simp [he])
          (by have := hbo_post e he; omega)
    · -- live_sub
      intro p2 hp2
      obtain ⟨hp2L, hp2ne⟩ := hsubL p2 hp2
      obtain ⟨e, he, rfl⟩ := G.live_sub p2 hp2L
      rw [hbs2] at he
      simp only [List.mem_append, List.mem_cons] at he
      rcases he with (he | he | he) | he | he
      · exact ⟨e, by simp [he], rfl⟩
      · subst he
        exact ⟨(fb, ⟨fbh.size, Link.next (some blk)⟩), by simp, rfl⟩
      · exact ⟨e, by simp [he], rfl⟩
      · exfalso
        subst he
        simp at hp2ne
      · exact ⟨e, by simp [he], rfl⟩
    · -- noundef
      intro e he
      simp only [List.mem_append, List.mem_cons] at he
      rcases he with (he | he | he) | he | he
      · exact G.noundef e (by rw [hbs2]; simp [he])
      · subst he; simp
      · exact G.noundef e (by rw [hbs2]; simp [he])
      · subst he; simp
      · exact G.noundef e (by rw [hbs]; simp [he])
    · -- nodupL
      exact G.nodupL.erase _

/-- With an empty free list, `my_free` on a non-null pointer dereferences
the `NULL` head and crashes. -/
theorem my_free_empty_crash {s : AllocState} {a : Nat}
    (hff : s.firstFreeBlock = none) (ha : HEADER_SIZE ≤ a) :
    my_free s (some a) = none := by
  simp only [my_free, hff, if_neg (show ¬ a < HEADER_SIZE by omega)]

/-- `my_free(NULL)` does nothing (functionally). -/
theorem my_free_null (s : AllocState) : my_free s none = some s := rfl

/-- Any successful `my_free` of an outstanding pointer preserves the
invariant, removing the pointer from the outstanding set. -/
theorem my_free_preserves {s : AllocState} {L : List Nat}
    {bs : List (Nat × Header)} {p : Nat} {s2 : AllocState}
    (G : GoodState s L bs) (hU : s.heapSize < U64)
    (hpL : p ∈ L) (hm : my_free s (some p) = some s2) :
    (∃ bs2, GoodState s2 (L.erase p) bs2) ∧ s2.heapSize = s.heapSize := by
  obtain ⟨e, he, rfl⟩ := G.live_sub p hpL
  obtain ⟨blk, bh⟩ := e
  simp only at hpL hm ⊢
  have hmag : bh.link = Link.magic := (G.live (blk, bh) he).mpr hpL
  obtain ⟨pre, post, hbs⟩ := List.append_of_mem he
  by_cases hA : freeBlocks pre = []
  · by_cases hB : freeBlocks post = []
    · exfalso
      have hffnone : s.firstFreeBlock = none := by
        rw [G.ff_eq, hbs, freeBlocks_append,
          freeBlocks_cons_notfree (by simp [isFree, hmag]), hA, hB]
        rfl
      rw [my_free_empty_crash hffnone (by unfold HEADER_SIZE; omega)] at hm
      cases hm
    · obtain ⟨s2', bs2, hm', hG, hhs⟩ :=
        my_free_good_head G hU hbs hmag hpL hA hB
      rw [hm'] at hm
      obtain rfl := Option.some.inj hm
      exact ⟨⟨bs2, hG⟩, hhs⟩
  · obtain ⟨s2', bs2, hm', hG, hhs⟩ :=
      my_free_good_mid G hU hbs hmag hpL hA
    rw [hm'] at hm
    obtain rfl := Option.some.inj hm
    exact ⟨⟨bs2, hG⟩, hhs⟩

/-- The freshly initialized allocator satisfies the invariant with one free
block spanning the arena. -/
theorem initAllocator_good {hs : Nat} (hgood : goodHS hs) :
    GoodState (initAllocator hs) [] [(0, ⟨hs, Link.next none⟩)] := by
  obtain ⟨h1, h2, h3⟩ := hgood
  have h16 : 16 ≤ hs := by omega
  constructor
  · simp only [chainSeg, initAllocator, HEADER_SIZE, Bool.and_eq_true,
      beq_iff_eq, decide_eq_true_eq]
    exact ⟨⟨⟨trivial, h16⟩, h2⟩, Nat.zero_add hs⟩
  · intro e he
    simp only [List.mem_singleton] at he
    subst he
    simp [initAllocator, lookupH]
  · rfl
  · rfl
  · simp [freeBlocks, isFree, List.filter]
  · intro e he
    simp only [List.mem_singleton] at he
    subst he
    simp
  · simp
  · intro e he
    simp only [List.mem_singleton] at he
    subst he
    simp
  · exact List.nodup_nil

/-- Every reachable state satisfies the §3 invariants, and its arena
capacity is the configured `HEAP_SIZE`. -/
theorem reach_inv {hs : Nat} (hgood : goodHS hs) :
    ∀ {s : AllocState} {L : List Nat}, Reach hs s L →
      (∃ bs, GoodState s L bs) ∧ s.heapSize = hs := by
  intro s L h
  induction h with
  | init => exact ⟨⟨_, initAllocator_good hgood⟩, rfl⟩
  | step_malloc hr hn hm ih =>
    obtain ⟨⟨bs, G⟩, hhs⟩ := ih
    obtain ⟨hex, hhs2⟩ := my_malloc_preserves G hm
    exact ⟨hex, by rw [hhs2, hhs]⟩
  | step_free_null hr hm ih =>
    rw [my_free_null] at hm
    obtain rfl := Option.some.inj hm
    exact ih
  | step_free hr hpL hm ih =>
    obtain ⟨⟨bs, G⟩, hhs⟩ := ih
    obtain ⟨hex, hhs2⟩ := my_free_preserves G (by rw [hhs]; exact hgood.2.2)
      hpL hm
    exact ⟨hex, by rw [hhs2, hhs]⟩

/-- The sizes along a chain segment sum to the span it covers. -/
theorem chainSeg_sum {o o2 : Nat} {l : List (Nat × Header)}
    (h : chainSeg o o2 l = true) :
    o + (l.map fun e => e.2.size).sum = o2 := by
  induction l generalizing o with
  | nil => rw [chainSeg_nil] at h; simpa using h
  | cons a t ih =>
    rw [chainSeg_cons] at h
    obtain ⟨_, _, _, hc⟩ := h
    have := ih hc
    simp only [List.map_cons, List.sum_cons]
    omega

/-- Offsets along a chain segment are strictly increasing (pairwise). -/
theorem chainSeg_pairwise {o o2 : Nat} {l : List (Nat × Header)}
    (h : chainSeg o o2 l = true) :
    List.Pairwise (fun a b : Nat × Header => a.1 < b.1) l := by
  induction l generalizing o with
  | nil => exact List.Pairwise.nil
  | cons a t ih =>
    rw [chainSeg_cons] at h
    obtain ⟨ha, hsz, _, hc⟩ := h
    refine List.Pairwise.cons ?_ (ih hc)
    intro e he
    have := (chainSeg_mem_bounds hc e he).1
    omega

/-- `dumpAllocator`'s address walk, run on a state agreeing with a chain
covering the arena, returns exactly that chain. -/
theorem walkAll_of_chain (s : AllocState) :
    ∀ (fuel : Nat) {o : Nat} {l : List (Nat × Header)},
      chainSeg o s.heapSize l = true → memAgrees s.mem l → l ≠ [] →
      l.length ≤ fuel → walkAll s fuel o = some l := by
  intro fuel
  induction fuel with
  | zero =>
    intro o l _ _ hne hlen
    cases l with
    | nil => exact absurd rfl hne
    | cons a t => simp at hlen
  | succ f ih =>
    intro o l hch hmem hne hlen
    cases l with
    | nil => exact absurd rfl hne
    | cons a t =>
      obtain ⟨ao, ah⟩ := a
      rw [chainSeg_cons] at hch
      obtain ⟨hao, hsz, hmod, hct⟩ := hch
      simp only at hao hsz hmod hct
      subst hao
      have hlk : lookupH s.mem ao = some ah := hmem (ao, ah) (List.mem_cons_self _ _)
      have hle : ao + ah.size ≤ s.heapSize := chainSeg_le hct
      simp only [walkAll, hlk, if_neg (show ¬ ah.size < HEADER_SIZE by
        unfold HEADER_SIZE; omega), if_neg (show ¬ s.heapSize < ao + ah.size by
        omega)]
      by_cases hend : ao + ah.size = s.heapSize
      · rw [if_pos hend]
        cases t with
        | nil => rfl
        | cons b t2 =>
          exfalso
          rw [chainSeg_cons] at hct
          obtain ⟨hb1, hb2, _, hbc⟩ := hct
          have := chainSeg_le hbc
          omega
      · rw [if_neg hend]
        have htne : t ≠ [] := by
          intro hcon
          subst hcon
          rw [chainSeg_nil] at hct
          exact hend (by simpa using hct)
        rw [ih hct (fun e he => hmem e (List.mem_cons_of_mem _ he)) htne
          (by simp at hlen ⊢; omega)]

/-- `dumpAllocator`'s free-list walk, run on a state agreeing with a
linked chain of free headers, returns exactly the chain's offsets. -/
theorem walkFree_of_chain (s : AllocState) :
    ∀ (fuel : Nat) {A : List (Nat × Header)},
      (∀ e ∈ A, lookupH s.mem e.1 = some e.2) →
      chainNextTo A none = true →
      A.length < fuel →
      walkFree s fuel (headOffD A none) = some (A.map fun e => e.1) := by
  intro fuel
  induction fuel with
  | zero => intro A _ _ hlen; omega
  | succ f ih =>
    intro A hmem hch hlen
    cases A with
    | nil => rfl
    | cons a t =>
      obtain ⟨ao, ah⟩ := a
      simp only [chainNextTo, Bool.and_eq_true, beq_iff_eq] at hch
      obtain ⟨hlink, hct⟩ := hch
      have hlk : lookupH s.mem ao = some ah := hmem (ao, ah) (List.mem_cons_self _ _)
      have hrn : readNext s.mem ao = some (headOffD t none) :=
        readNext_eq hlk hlink
      show walkFree s (f + 1) (some ao) = _
      simp only [walkFree, hrn,
        ih (fun e he => hmem e (List.mem_cons_of_mem _ he)) hct
          (by simp at hlen ⊢; omega), List.map_cons]

/-! ## The first-fit allocation path, packaged -/

theorem readNext_setNext_self (m : Mem) (o : Nat) (v : Option Nat) :
    readNext (setNext m o v) o = some v := by
  unfold setNext
  cases h : lookupH m o with
  | none => exact readNext_eq (lookupH_writeH_self _ _ _) rfl
  | some h0 => exact readNext_eq (lookupH_writeH_self _ _ _) rfl

theorem needed_lt_U64 {n : Nat} (hn : n ≤ U64 - 32) :
    roundUp n + HEADER_SIZE < U64 := by
  have hU : (32 : Nat) ≤ U64 := by unfold U64; norm_num
  have h1 := roundUp_le n (by omega)
  unfold HEADER_SIZE
  omega

/-- When some free block fits (and the size arithmetic does not wrap),
`my_malloc` succeeds on the first-fit block, stamps it with the needed
size and the magic mark, and preserves the invariant. -/
theorem my_malloc_firstfit {s : AllocState} {L : List Nat}
    {bs : List (Nat × Header)} {n : Nat}
    (G : GoodState s L bs) (hok : roundUp n + HEADER_SIZE < U64)
    (hfit : ∃ e ∈ freeBlocks bs, roundUp n + HEADER_SIZE ≤ e.2.size) :
    ∃ bo s2 bs2,
      firstFit (freeBlocks bs) (roundUp n + HEADER_SIZE) = some bo ∧
      my_malloc s n = some (s2, some (bo + HEADER_SIZE)) ∧
      GoodState s2 ((bo + HEADER_SIZE) :: L) bs2 ∧
      (bo, (⟨roundUp n + HEADER_SIZE, Link.magic⟩ : Header)) ∈ bs2 ∧
      s2.heapSize = s.heapSize := by
  have hneed : (roundUp n + HEADER_SIZE) % U64 = roundUp n + HEADER_SIZE :=
    Nat.mod_eq_of_lt hok
  obtain ⟨A, e, B, hsplitfs, hAlt, hfite, hff⟩ :=
    exists_first_fit (roundUp n + HEADER_SIZE) (freeBlocks bs) hfit
  obtain ⟨eo, eh⟩ := e
  obtain ⟨pre, post, hbs, hfA, hfB⟩ := freeBlocks_split bs A B (eo, eh) hsplitfs
  have hefree : isFree eh = true := by
    apply isFree_of_mem_freeBlocks (e := (eo, eh)) (l := bs)
    rw [hsplitfs]
    simp
  obtain ⟨q, hlink⟩ := isFree_link hefree
  have hA2 : ∀ x ∈ freeBlocks pre, x.2.size < roundUp n + HEADER_SIZE := by
    rw [hfA]
    exact hAlt
  simp only at hfite hff
  by_cases hx : eh.size = roundUp n + HEADER_SIZE
  · obtain ⟨s2, bs2, hm, G2, hmem2, hhs⟩ :=
      my_malloc_good_exact G hneed hbs hlink hA2 hx
    rw [hx] at hmem2
    exact ⟨eo, s2, bs2, hff, hm, G2, hmem2, hhs⟩
  · have hlt : roundUp n + HEADER_SIZE < eh.size := by omega
    obtain ⟨s2, bs2, hm, G2, hmem2, hhs⟩ :=
      my_malloc_good_split G hneed hbs hlink hA2 hlt
        (by unfold HEADER_SIZE; omega)
        (by have := roundUp_mod16 n; unfold HEADER_SIZE; omega)
    exact ⟨eo, s2, bs2, hff, hm, G2, hmem2, hhs⟩

/-! ## The claims -/

/-- C3 (corrected): for request sizes whose rounded form does not wrap the
64-bit arithmetic, whenever no free block is at least
`roundUp(n) + HEADER_SIZE` bytes, `my_malloc` returns `NULL` and leaves the
allocator state completely unchanged.  (The original claim, quantified over
every `uint64_t` request, is refuted by `spec_claim_C3_counterexample`:
an over-large request wraps to a small `needed` and succeeds.) -/
theorem spec_claim_C3 {s : AllocState} {L : List Nat}
    {bs : List (Nat × Header)} {n : Nat}
    (G : GoodState s L bs) (hn : n ≤ U64 - 32)
    (hA : ∀ x ∈ freeBlocks bs, x.2.size < roundUp n + HEADER_SIZE) :
    my_malloc s n = some (s, none) := by
  apply my_malloc_none G
  intro x hx
  rw [Nat.mod_eq_of_lt (needed_lt_U64 hn)]
  exact hA x hx

/-- C3, witness: on a fresh 64-byte arena a request of 49 bytes (rounded
needed size 80 > 64) fails with `NULL` and the state is untouched. -/
theorem spec_claim_C3_witness :
    my_malloc (initAllocator 64) 49 = some (initAllocator 64, none) :=
  spec_claim_C3
    (initAllocator_good ⟨by norm_num, by norm_num, by norm_num [U64]⟩)
    (by unfold U64; norm_num) (by decide)

/-- C3, counterexample to the original quantification: on a fresh 64-byte
arena, requesting `2^64 - 1` bytes — far more than `HEAP_SIZE - 16` — does
NOT return `NULL`: the size computation wraps to 16, the request succeeds
and the state is mutated. -/
theorem spec_claim_C3_counterexample :
    64 - HEADER_SIZE < U64 - 1 ∧
    my_malloc (initAllocator 64) (U64 - 1) =
      some (⟨64, [(0, ⟨16, Link.magic⟩), (16, ⟨48, Link.next none⟩)],
        some 16⟩, some 16) ∧
    (⟨64, [(0, ⟨16, Link.magic⟩), (16, ⟨48, Link.next none⟩)],
        some 16⟩ : AllocState) ≠ initAllocator 64 := by
  refine ⟨by unfold U64 HEADER_SIZE; norm_num, by decide, by decide⟩

/-- C4 (corrected): for every `n` that is at most `2^64 - 16`, `roundUp n`
is the least multiple of 16 that is ≥ `n` (and `roundUp` is a pure Lean
function).  (The original claim, for every unsigned 64-bit `n`, is refuted
by `spec_claim_C4_counterexample`: near `2^64` the `+ 0xF` wraps and the
result is 0, smaller than `n`.) -/
theorem spec_claim_C4 {n : Nat} (hn : n ≤ U64 - 16) :
    n ≤ roundUp n ∧ roundUp n % 16 = 0 ∧
      ∀ m, m % 16 = 0 → n ≤ m → roundUp n ≤ m := by
  rw [roundUp_spec n hn]
  refine ⟨by omega, by simp [Nat.mul_mod_left], ?_⟩
  intro m hm16 hnm
  omega

/-- C4, witness: 37 rounds up to 48, a multiple of 16 not above the
candidate multiple 48. -/
theorem spec_claim_C4_witness :
    37 ≤ U64 - 16 ∧ 37 ≤ roundUp 37 ∧ roundUp 37 % 16 = 0 ∧
      roundUp 37 ≤ 48 :=
  ⟨by unfold U64; norm_num,
    (spec_claim_C4 (by unfold U64; norm_num)).1,
    (spec_claim_C4 (by unfold U64; norm_num)).2.1,
    (spec_claim_C4 (by unfold U64; norm_num)).2.2 48 (by norm_num)
      (by norm_num)⟩

/-- C4, counterexample to the original claim: `roundUp (2^64 - 1)` is 0,
which is not ≥ `2^64 - 1` — the `n + 0xF` wraps modulo `2^64`. -/
theorem spec_claim_C4_counterexample :
    roundUp (U64 - 1) = 0 ∧ ¬ (U64 - 1 ≤ roundUp (U64 - 1)) := by
  refine ⟨by decide, ?_⟩
  rw [(by decide : roundUp (U64 - 1) = 0)]
  unfold U64
  norm_num

/-- C6 (confirmed): in an invariant state of a representable arena,
when some free block is at least `neededSize = roundUp n + HEADER_SIZE`
bytes, `my_malloc` picks exactly the first-fit block of the free list,
returns its payload pointer (one header past the block), the block's
header afterwards records exactly `neededSize` bytes (so
`neededSize - HEADER_SIZE` usable payload bytes) marked allocated, the
invariant still holds, and the block is disjoint from every other block
of the arena. -/
theorem spec_claim_C6 {s : AllocState} {L : List Nat}
    {bs : List (Nat × Header)} {n : Nat}
    (G : GoodState s L bs) (hU : s.heapSize < U64)
    (hfit : ∃ e ∈ freeBlocks bs, roundUp n + HEADER_SIZE ≤ e.2.size) :
    ∃ bo s2 bs2,
      firstFit (freeBlocks bs) (roundUp n + HEADER_SIZE) = some bo ∧
      my_malloc s n = some (s2, some (bo + HEADER_SIZE)) ∧
      lookupH s2.mem bo =
        some ⟨roundUp n + HEADER_SIZE, Link.magic⟩ ∧
      GoodState s2 ((bo + HEADER_SIZE) :: L) bs2 ∧
      ∀ e ∈ bs2, e.1 ≠ bo →
        e.1 + e.2.size ≤ bo ∨ bo + (roundUp n + HEADER_SIZE) ≤ e.1 := by
  have hok : roundUp n + HEADER_SIZE < U64 := by
    obtain ⟨e, he, hsz⟩ := hfit
    have hb := chainSeg_mem_bounds G.shape e (freeBlocks_sub he)
    omega
  obtain ⟨bo, s2, bs2, hff, hm, G2, hmem2, hhs⟩ :=
    my_malloc_firstfit G hok hfit
  refine ⟨bo, s2, bs2, hff, hm, G2.mem_ok _ hmem2, G2, ?_⟩
  intro e he hne
  have hd := chainSeg_disjoint G2.shape e he _ hmem2 (by simpa using hne)
  simpa using hd

/-- C6, witness: on a fresh 64-byte arena, `my_malloc 0` takes the single
(hence first-fit) free block at offset 0 and returns payload pointer 16,
with the allocated header recording 16 bytes. -/
theorem spec_claim_C6_witness :
    ∃ bo s2 bs2,
      firstFit (freeBlocks [(0, (⟨64, Link.next none⟩ : Header))])
        (roundUp 0 + HEADER_SIZE) = some bo ∧
      my_malloc (initAllocator 64) 0 = some (s2, some (bo + HEADER_SIZE)) ∧
      lookupH s2.mem bo =
        some ⟨roundUp 0 + HEADER_SIZE, Link.magic⟩ ∧
      GoodState s2 ((bo + HEADER_SIZE) :: []) bs2 ∧
      ∀ e ∈ bs2, e.1 ≠ bo →
        e.1 + e.2.size ≤ bo ∨ bo + (roundUp 0 + HEADER_SIZE) ≤ e.1 :=
  spec_claim_C6
    (initAllocator_good ⟨by norm_num, by norm_num, by norm_num [U64]⟩)
    (by decide)
    ⟨(0, ⟨64, Link.next none⟩), by decide, by decide⟩

/-- C7 (confirmed): the split case of `allocate_block`.  When the
candidate block at `bo` strictly exceeds the needed size, its size field
becomes the needed size and it is marked allocated; a new free block
appears at `bo + needed` with size `oldSize - needed` (strictly positive,
never a zero-size block) and the candidate's old `next`; the tracked
pointer slot is redirected to the new free block; the returned pointer is
the candidate's payload. -/
theorem spec_claim_C7 {s : AllocState} {sl : Slot} {bo nsz : Nat}
    {bh : Header} {q : Option Nat}
    (hlk : lookupH s.mem bo = some bh) (hlink : bh.link = Link.next q)
    (hlt : nsz < bh.size) (h16 : 16 ≤ nsz)
    (hbound : bo + bh.size ≤ s.heapSize)
    (hsl : ∀ o, sl = Slot.nextOf o → o ≠ bo ∧ o ≠ bo + nsz) :
    ∃ s2, allocate_block s sl bo nsz = some (s2, bo + HEADER_SIZE) ∧
      lookupH s2.mem bo = some ⟨nsz, Link.magic⟩ ∧
      lookupH s2.mem (bo + nsz) = some ⟨bh.size - nsz, Link.next q⟩ ∧
      readSlot s2 sl = some (some (bo + nsz)) ∧
      0 < bh.size - nsz := by
  have hbo_ne : (bo : Nat) ≠ bo + nsz := by omega
  have h2 : lookupH (setSize (setSize s.mem bo nsz) (bo + nsz)
      (bh.size - nsz)) bo = some ⟨nsz, bh.link⟩ := by
    rw [lookupH_setSize_ne _ _ _ _ hbo_ne]
    exact lookupH_setSize_self _ _ _ _ hlk
  have h3 : lookupH (setNext (setSize (setSize s.mem bo nsz) (bo + nsz)
      (bh.size - nsz)) (bo + nsz) q) bo = some ⟨nsz, bh.link⟩ := by
    rw [lookupH_setNext_ne _ _ _ _ hbo_ne]
    exact h2
  have h4 : lookupH (setMagic (setNext (setSize (setSize s.mem bo nsz)
      (bo + nsz) (bh.size - nsz)) (bo + nsz) q) bo) bo =
      some ⟨nsz, Link.magic⟩ := by
    have := lookupH_setMagic_self _ _ _ h3
    simpa using this
  obtain ⟨lk, g1⟩ := lookupH_setSize_isSome (setSize s.mem bo nsz) (bo + nsz)
    (bh.size - nsz)
  have g2 : lookupH (setNext (setSize (setSize s.mem bo nsz) (bo + nsz)
      (bh.size - nsz)) (bo + nsz) q) (bo + nsz) =
      some ⟨bh.size - nsz, Link.next q⟩ := by
    have := lookupH_setNext_self _ _ q _ g1
    simpa using this
  have g3 : lookupH (setMagic (setNext (setSize (setSize s.mem bo nsz)
      (bo + nsz) (bh.size - nsz)) (bo + nsz) q) bo) (bo + nsz) =
      some ⟨bh.size - nsz, Link.next q⟩ := by
    rw [lookupH_setMagic_ne _ _ _ (fun h => hbo_ne h.symm)]
    exact g2
  rw [allocate_block_split hlk hlink hlt h16 hbound]
  cases sl with
  | head =>
    refine ⟨_, rfl, ?_, ?_, ?_, by omega⟩
    · simpa [writeSlot] using h4
    · simpa [writeSlot] using g3
    · simp [writeSlot, readSlot]
  | nextOf o =>
    obtain ⟨ho1, ho2⟩ := hsl o rfl
    refine ⟨_, rfl, ?_, ?_, ?_, by omega⟩
    · show lookupH (setNext _ o _) bo = _
      rw [lookupH_setNext_ne _ _ _ _ (fun h => ho1 h.symm)]
      exact h4
    · show lookupH (setNext _ o _) (bo + nsz) = _
      rw [lookupH_setNext_ne _ _ _ _ (fun h => ho2 h.symm)]
      exact g3
    · show readNext (setNext _ o _) o = _
      exact readNext_setNext_self _ _ _

/-- C7, witness: splitting the fresh 64-byte block for a 16-byte need
leaves an allocated 16-byte block at 0 and a free 48-byte block at 16,
with the head slot redirected there. -/
theorem spec_claim_C7_witness :
    ∃ s2, allocate_block (initAllocator 64) Slot.head 0 16 =
        some (s2, 0 + HEADER_SIZE) ∧
      lookupH s2.mem 0 = some ⟨16, Link.magic⟩ ∧
      lookupH s2.mem (0 + 16) = some ⟨64 - 16, Link.next none⟩ ∧
      readSlot s2 Slot.head = some (some (0 + 16)) ∧
      0 < 64 - 16 :=
  @spec_claim_C7 (initAllocator 64) Slot.head 0 16 ⟨64, Link.next none⟩ none
    (by decide) rfl (by decide) (by decide) (by decide)
    (fun o h => Slot.noConfusion h)

/-- C10 (confirmed): with any free block available, `my_malloc 0`
succeeds: the zero-byte request still consumes a whole header, returning
a non-null payload pointer whose block records exactly `HEADER_SIZE`
bytes marked allocated. -/
theorem spec_claim_C10 {s : AllocState} {L : List Nat}
    {bs : List (Nat × Header)}
    (G : GoodState s L bs) (hne : freeBlocks bs ≠ []) :
    ∃ s2 p, my_malloc s 0 = some (s2, some p) ∧ HEADER_SIZE ≤ p ∧
      lookupH s2.mem (p - HEADER_SIZE) =
        some ⟨HEADER_SIZE, Link.magic⟩ := by
  obtain ⟨e, t, hfs⟩ := List.exists_cons_of_ne_nil hne
  have he : e ∈ freeBlocks bs := by rw [hfs]; simp
  have h16 : 16 ≤ e.2.size :=
    (chainSeg_size_pos G.shape e (freeBlocks_sub he)).1
  have hr0 : roundUp 0 = 0 := by decide
  obtain ⟨bo, s2, bs2, hff, hm, G2, hmem2, hhs⟩ :=
    my_malloc_firstfit G (by rw [hr0]; decide)
      ⟨e, he, by rw [hr0]; unfold HEADER_SIZE; omega⟩
  have hlook := G2.mem_ok _ hmem2
  rw [hr0, Nat.zero_add] at hlook
  refine ⟨s2, bo + HEADER_SIZE, hm, Nat.le_add_left _ _, ?_⟩
  rw [Nat.add_sub_cancel]
  exact hlook

/-- C10, witness: on a fresh 32-byte arena `my_malloc 0` returns payload
pointer 16 to a 16-byte allocated block. -/
theorem spec_claim_C10_witness :
    ∃ s2 p, my_malloc (initAllocator 32) 0 = some (s2, some p) ∧
      HEADER_SIZE ≤ p ∧
      lookupH s2.mem (p - HEADER_SIZE) =
        some ⟨HEADER_SIZE, Link.magic⟩ :=
  spec_claim_C10
    (initAllocator_good ⟨by norm_num, by norm_num, by norm_num [U64]⟩)
    (by decide)

/-- C1 (refuted by the code): the lock traces transcribed from `malloc.c`
violate the single-critical-section discipline on several paths, while
`dumpAllocator` alone obeys it.  Concretely: a successful `my_malloc`
(here the split path) unlocks between the search and `allocate_block` and
locks twice; the out-of-memory path returns holding the lock;
the exact-fit path ends holding the lock; a non-null `my_free` calls
`merge_blocks`, which re-locks the non-recursive mutex while it is held;
and `my_free(NULL)` returns holding the lock. -/
theorem spec_claim_C1 :
    (lockCount (my_mallocLock true false) = 2 ∧
      ¬ singleCriticalSection (my_mallocLock true false)) ∧
    ((my_mallocLock false false).getLast? = some LockEv.lock ∧
      ¬ singleCriticalSection (my_mallocLock false false)) ∧
    ((my_mallocLock true true).getLast? = some LockEv.lock ∧
      ¬ singleCriticalSection (my_mallocLock true true)) ∧
    (relockWhileHeld 0 (my_freeLock false false true true) = true ∧
      ¬ singleCriticalSection (my_freeLock false false true true)) ∧
    ((my_freeLock true false false false).getLast? = some LockEv.lock ∧
      ¬ singleCriticalSection (my_freeLock true false false false)) ∧
    singleCriticalSection dumpAllocatorLock := by
  unfold singleCriticalSection
  decide

/-- C2 (refuted by the code): the empty-free-list case of the claimed
head insertion crashes instead.  On a fresh 32-byte arena a 16-byte
allocation takes the whole arena (exact fit), leaving `firstFreeBlock`
NULL; freeing the returned pointer then dereferences the NULL head in the
`else` comparison and the run is undefined (`none`). -/
theorem spec_claim_C2 :
    my_malloc (initAllocator 32) 16 =
      some (⟨32, [(0, ⟨32, Link.magic⟩)], none⟩, some 16) ∧
    my_free (⟨32, [(0, ⟨32, Link.magic⟩)], none⟩ : AllocState) (some 16) =
      none := by
  decide

/-- C5 (refuted by the code): the malloc/free round trip is broken when
the allocation empties the free list.  On a fresh 64-byte arena,
`my_malloc 48` consumes the single free block exactly; the immediately
following `my_free` of the returned pointer crashes on the NULL
`firstFreeBlock` instead of restoring the original one-block free
list. -/
theorem spec_claim_C5 :
    my_malloc (initAllocator 64) 48 =
      some (⟨64, [(0, ⟨64, Link.magic⟩)], none⟩, some 16) ∧
    my_free (⟨64, [(0, ⟨64, Link.magic⟩)], none⟩ : AllocState) (some 16) =
      none := by
  decide

/-- C8 (confirmed): after any successful `my_free` of an outstanding
pointer in a reachable state, the free-list walk from `firstFreeBlock`
visits exactly the free blocks of the address-ordered arena walk, in
strictly increasing address order, and no two free blocks are physically
adjacent. -/
theorem spec_claim_C8 {hs : Nat} {s : AllocState} {L : List Nat} {p : Nat}
    {s2 : AllocState}
    (hgood : goodHS hs) (hr : Reach hs s L) (hpL : p ∈ L)
    (hm : my_free s (some p) = some s2) :
    ∃ l, walkAll s2 hs 0 = some l ∧
      walkFree s2 (hs + 1) s2.firstFreeBlock =
        some ((l.filter fun e => isFree e.2).map fun e => e.1) ∧
      List.Chain' (fun a b => a < b)
        ((l.filter fun e => isFree e.2).map fun e => e.1) ∧
      List.Chain' notAdj (l.filter fun e => isFree e.2) := by
  obtain ⟨⟨bs, G⟩, hhs⟩ := reach_inv hgood hr
  obtain ⟨⟨bs2, G2⟩, hhs2⟩ :=
    my_free_preserves G (by rw [hhs]; exact hgood.2.2) hpL hm
  have hhs2h : s2.heapSize = hs := by rw [hhs2, hhs]
  have hbs2ne : bs2 ≠ [] := by
    intro hcon
    have hsh := G2.shape
    rw [hcon, chainSeg_nil] at hsh
    have h0 : (0 : Nat) = s2.heapSize := by simpa using hsh
    have := hgood.1
    omega
  have hlen : bs2.length ≤ hs := by
    have := chainSeg_length G2.shape
    rw [hhs2h] at this
    omega
  have hwa : walkAll s2 hs 0 = some bs2 := by
    have := walkAll_of_chain s2 hs G2.shape G2.mem_ok hbs2ne hlen
    exact this
  have hfilter : bs2.filter (fun e => isFree e.2) = freeBlocks bs2 := rfl
  have hwf : walkFree s2 (hs + 1) (headOffD (freeBlocks bs2) none) =
      some ((freeBlocks bs2).map fun e => e.1) := by
    apply walkFree_of_chain s2 (hs + 1)
      (fun e he => G2.mem_ok e (freeBlocks_sub he))
    · have hl := G2.links
      unfold chainNext at hl
      exact hl
    · have := List.length_filter_le (fun e => isFree e.2) bs2
      unfold freeBlocks
      omega
  have hffq : s2.firstFreeBlock = headOffD (freeBlocks bs2) none := by
    rw [G2.ff_eq, headOffO_eq_headOffD]
  refine ⟨bs2, hwa, ?_, ?_, ?_⟩
  · rw [hffq, hfilter, hwf]
  · rw [hfilter, List.chain'_map]
    have hp : List.Pairwise (fun a b : Nat × Header => a.1 < b.1)
        (freeBlocks bs2) :=
      (chainSeg_pairwise G2.shape).sublist (List.filter_sublist _)
    exact hp.chain'
  · rw [hfilter]
    exact G2.noadj

/-- C8, witness: on a fresh 64-byte arena, allocate 0 bytes (splitting
off a 16-byte block) and free the returned pointer: the walks of the
resulting state agree, are sorted, and show no adjacent free blocks. -/
theorem spec_claim_C8_witness :
    ∃ l,
      walkAll (⟨64, [(0, ⟨64, Link.next none⟩), (16, ⟨48, Link.next none⟩)],
        some 0⟩ : AllocState) 64 0 = some l ∧
      walkFree (⟨64, [(0, ⟨64, Link.next none⟩), (16, ⟨48, Link.next none⟩)],
          some 0⟩ : AllocState) (64 + 1)
          (⟨64, [(0, ⟨64, Link.next none⟩), (16, ⟨48, Link.next none⟩)],
            some 0⟩ : AllocState).firstFreeBlock =
        some ((l.filter fun e => isFree e.2).map fun e => e.1) ∧
      List.Chain' (fun a b => a < b)
        ((l.filter fun e => isFree e.2).map fun e => e.1) ∧
      List.Chain' notAdj (l.filter fun e => isFree e.2) :=
  @spec_claim_C8 64
    (⟨64, [(0, ⟨16, Link.magic⟩), (16, ⟨48, Link.next none⟩)],
      some 16⟩ : AllocState)
    [16] 16
    (⟨64, [(0, ⟨64, Link.next none⟩), (16, ⟨48, Link.next none⟩)],
      some 0⟩ : AllocState)
    ⟨by norm_num, by norm_num, by norm_num [U64]⟩
    (@Reach.step_malloc 64 (initAllocator 64) [] 0
      (⟨64, [(0, ⟨16, Link.magic⟩), (16, ⟨48, Link.next none⟩)],
        some 16⟩ : AllocState)
      (some 16) Reach.init (by unfold U64; norm_num) (by decide))
    (by decide) (by decide)

/-- C9 (confirmed): in every reachable state the address-order
enumeration from the arena start succeeds, tiles the arena without gaps
or overlaps (each block's size spans exactly to the next block's start),
and the block sizes sum to exactly `HEAP_SIZE`. -/
theorem spec_claim_C9 {hs : Nat} {s : AllocState} {L : List Nat}
    (hgood : goodHS hs) (hr : Reach hs s L) :
    ∃ l, walkAll s hs 0 = some l ∧ chainSeg 0 hs l = true ∧
      (l.map fun e => e.2.size).sum = hs := by
  obtain ⟨⟨bs, G⟩, hhs⟩ := reach_inv hgood hr
  have hshape : chainSeg 0 hs bs = true := by
    rw [← hhs]
    exact G.shape
  have hbsne : bs ≠ [] := by
    intro hcon
    have hsh := hshape
    rw [hcon, chainSeg_nil] at hsh
    have h0 : (0 : Nat) = hs := by simpa using hsh
    have := hgood.1
    omega
  have hlen : bs.length ≤ hs := by
    have := chainSeg_length hshape
    omega
  refine ⟨bs, ?_, hshape, ?_⟩
  · exact walkAll_of_chain s hs G.shape G.mem_ok hbsne (by omega)
  · have := chainSeg_sum hshape
    omega

/-- C9, witness: the fresh 64-byte arena is tiled by its single free
block of size 64. -/
theorem spec_claim_C9_witness :
    ∃ l, walkAll (initAllocator 64) 64 0 = some l ∧
      chainSeg 0 64 l = true ∧
      (l.map fun e => e.2.size).sum = 64 :=
  spec_claim_C9 ⟨by norm_num, by norm_num, by norm_num [U64]⟩ Reach.init

end Malloc
